import Mathlib

/-!
Verification of the recorded-video catalog synchronization engine of
`server/app/models/RecordedVideo.py` (class `RecordedVideo`, methods
`update`, `updateSingle` and the nested `save`, plus the `os.walk`
enumeration it drives).

The embedding models the database rows handled by the engine
(`Channel`, `RecordedProgram`, `RecordedVideo`), the scan of one
directory (filters, fingerprinting, change classification, deferred
save tasks), the commit transaction with its lock-retry loop, the
stale-row deletion phase, and the orchestrator's empty-configuration
policy.  The external `MetadataAnalyzer` collaborator is an interface
boundary: each candidate file carries, as oracle inputs, the outcome of
`calculateTSFileHash` (`none` standing for the `ValueError` raised on a
too-small file) and of `analyze` (drafts, `None`, or an unexpected
exception).
-/

namespace KonomiTV

/-- A `Channel` row.  The engine only reads and compares `id`
(`Channel.get_or_none(id=channel.id)`); `name` stands for all remaining
columns so that reuse of an existing row is observable. -/
structure ChannelRow where
  id : String
  name : String
deriving DecidableEq

/-- A `RecordedProgram` row: integer primary key, nullable channel
reference, `title` standing for the remaining metadata columns. -/
structure ProgramRow where
  id : Nat
  channel_id : Option String
  title : String
deriving DecidableEq

/-- A `RecordedVideo` row: primary key, owning-program foreign key
(`on_delete=CASCADE`), path, content hash; `meta` stands for the
remaining technical columns. -/
structure VideoRow where
  id : Nat
  recorded_program_id : Nat
  file_path : String
  file_hash : String
  meta : String
deriving DecidableEq

/-- The shared database.  `nextProgramId` / `nextVideoId` model the
autoincrement counters that assign primary keys on insert. -/
structure DB where
  channels : List ChannelRow
  programs : List ProgramRow
  videos : List VideoRow
  nextProgramId : Nat
  nextVideoId : Nat
deriving DecidableEq

/-- Draft `RecordedVideo` returned by `MetadataAnalyzer.analyze` (its
`file_path` is the analyzed path; `file_hash` is the hash the analyzer
itself computed). -/
structure VideoDraft where
  file_hash : String
  meta : String
deriving DecidableEq

/-- Draft `RecordedProgram` returned by `MetadataAnalyzer.analyze`. -/
structure ProgramDraft where
  title : String
deriving DecidableEq

/-- Outcome of `MetadataAnalyzer(file_path).analyze` for one file:
a draft triple, `None` (logged as warning, skipped), or an unexpected
exception (logged as error, skipped). -/
inductive AnalyzeOutcome where
  | ok (video : VideoDraft) (program : ProgramDraft) (channel : Option ChannelRow)
  | unparseable
  | failure
deriving DecidableEq

/-- One file yielded by the directory walk: the directory that contains
it, its final name, and the oracle outcomes of the two analyzer calls
(`hash = none` models the `ValueError` raised when the file is below the
minimum size). -/
structure FileMeta where
  dirPath : String
  name : String
  hash : Option String
  analysis : AnalyzeOutcome
deriving DecidableEq

/-- `file_path = Path(dir_path) / file_name` rendered as a string. -/
def FileMeta.path (f : FileMeta) : String := f.dirPath ++ "/" ++ f.name

/-- Index of the last `.` in a list of characters, if any. -/
def lastDotIdx : List Char → Option Nat
  | [] => none
  | c :: cs =>
    match lastDotIdx cs with
    | some i => some (i + 1)
    | none => if c = '.' then some 0 else none

/-- `pathlib.PurePath.suffix` of a file name: `name[i:]` when the last
dot sits at position `i` with `0 < i < len(name) - 1`, else `""`. -/
def pathSuffix (name : String) : String :=
  match lastDotIdx name.data with
  | none => ""
  | some i => if 0 < i ∧ i + 1 < name.data.length then String.mk (name.data.drop i) else ""

/-- The fixed whitelist of recording container extensions:
`['.ts', '.m2t', '.m2ts', '.mts']`. -/
def tsSuffixes : List String := [".ts", ".m2t", ".m2ts", ".mts"]

/-- Python's `str.startswith`: the second string is a prefix of the
first (character-list implementation, so that concrete runs evaluate). -/
def strStartsWith (s p : String) : Bool := p.data.isPrefixOf s.data

/-- A walked file passes both validation filters: its name does not
start with the macOS sidecar marker `._`, and its extension is in the
whitelist. -/
def validFile (f : FileMeta) : Bool :=
  !(strStartsWith f.name "._") && tsSuffixes.contains (pathSuffix f.name)

/-- `RecordedVideo.get_or_none(file_path=...)`.  Tortoise raises when
several rows match; the model returns the first match, and theorems
that depend on this lookup carry a path-uniqueness hypothesis that
keeps the model inside the faithful domain. -/
def getOrNoneByPath (db : DB) (p : String) : Option VideoRow :=
  db.videos.find? (fun v => v.file_path == p)

/-- Log events emitted by the engine, one constructor per logging call
site of `updateSingle` (and its retry machinery). -/
inductive LogEvent where
  | tooSmall (path : String)
  | unparseable (path : String)
  | analyzeFailed (path : String)
  | addRecorded (path : String)
  | updateRecorded (path : String)
  | deleteRecorded (path : String)
  | dbLocked (remaining : Nat)
  | retrySucceeded
  | saveFailed
  | unexpectedError
deriving DecidableEq

/-- One deferred write queued during the scan: the arguments captured
by the `save(current_recorded_video, recorded_video, recorded_program,
channel)` coroutine appended to `save_tasks`. -/
structure SaveTask where
  current : Option VideoRow
  videoDraft : VideoDraft
  path : String
  programDraft : ProgramDraft
  channelDraft : Option ChannelRow
deriving DecidableEq

/-- Accumulator of the scan loop: `existing_files`, `save_tasks`, and
the log lines emitted so far. -/
structure ScanAcc where
  existing : List String
  tasks : List SaveTask
  logs : List LogEvent
deriving DecidableEq

/-- The New/Changed branch of the scan loop: analyze the file; on
success queue a `save` task and log Add/Update, otherwise log the skip. -/
def scanNewOrChanged (acc : ScanAcc) (f : FileMeta) (current : Option VideoRow) : ScanAcc :=
  match f.analysis with
  | .unparseable => { acc with logs := acc.logs ++ [.unparseable f.path] }
  | .failure => { acc with logs := acc.logs ++ [.analyzeFailed f.path] }
  | .ok vd pd cd =>
    { acc with
      tasks := acc.tasks ++ [⟨current, vd, f.path, pd, cd⟩],
      logs := acc.logs ++
        [match current with
         | none => LogEvent.addRecorded f.path
         | some _ => LogEvent.updateRecorded f.path] }

/-- One iteration of the scan loop of `updateSingle`: the `._` filter,
the extension whitelist, `existing_files.append` (before hashing), the
`calculateTSFileHash` attempt, the `get_or_none` lookup, and the
New/Changed/Unchanged classification. -/
def scanStep (db : DB) (acc : ScanAcc) (f : FileMeta) : ScanAcc :=
  if strStartsWith f.name "._" then acc
  else if !(tsSuffixes.contains (pathSuffix f.name)) then acc
  else
    let acc1 : ScanAcc := { acc with existing := acc.existing ++ [f.path] }
    match f.hash with
    | none => { acc1 with logs := acc1.logs ++ [.tooSmall f.path] }
    | some h =>
      match getOrNoneByPath db f.path with
      | none => scanNewOrChanged acc1 f none
      | some cur =>
        if cur.file_hash = h then acc1
        else scanNewOrChanged acc1 f (some cur)

/-- The whole scan of one directory's walked files.  The loop only
reads the database (`get_or_none`); all writes are deferred. -/
def scanFiles (db : DB) (files : List FileMeta) : ScanAcc :=
  files.foldl (scanStep db) ⟨[], [], []⟩

/-- Primitive database operations, used to record the order in which
one commit touches the store. -/
inductive DBOp where
  | deleteProgram (pid : Nat)
  | insertChannel (id : String)
  | updateChannel (id : String)
  | insertProgram (pid : Nat)
  | insertVideo (vid : Nat)
deriving DecidableEq

/-- Deleting a `RecordedProgram` row; the `CASCADE` constraint deletes
every `RecordedVideo` row owned by it.  `Channel` rows are untouched. -/
def deleteProgramCascade (db : DB) (pid : Nat) : DB :=
  { db with
    programs := db.programs.filter (fun p => p.id ≠ pid),
    videos := db.videos.filter (fun v => v.recorded_program_id ≠ pid) }

/-- The channel-reuse lookup at the top of `save`:
`Channel.get_or_none(id=channel.id)`; the boolean records whether an
existing row was found (a fetched row is saved as an UPDATE, a fresh
draft as an INSERT). -/
def resolveChannel (db : DB) (c? : Option ChannelRow) : Option (ChannelRow × Bool) :=
  match c? with
  | none => none
  | some c =>
    match db.channels.find? (fun ec => ec.id == c.id) with
    | some ec => some (ec, true)
    | none => some (c, false)

/-- Executing one queued `save` coroutine: channel-reuse lookup, delete
of the replaced program (cascading its video), then persistence in
foreign-key order — `channel.save()`, `recorded_program.save()`,
`recorded_video.save()`.  Returns the resulting state and the ordered
list of store operations performed. -/
def applySave (db : DB) (t : SaveTask) : DB × List DBOp :=
  let rc := resolveChannel db t.channelDraft
  let s1 : DB × List DBOp :=
    match t.current with
    | none => (db, [])
    | some cur =>
      (deleteProgramCascade db cur.recorded_program_id, [DBOp.deleteProgram cur.recorded_program_id])
  let s2 : DB × List DBOp :=
    match rc with
    | none => (s1.1, [])
    | some (c, true) => (s1.1, [DBOp.updateChannel c.id])
    | some (c, false) => ({ s1.1 with channels := s1.1.channels ++ [c] }, [DBOp.insertChannel c.id])
  let pid := s2.1.nextProgramId
  let db3 : DB :=
    { s2.1 with
      programs := s2.1.programs ++ [⟨pid, (rc.map (fun x => x.1.id)), t.programDraft.title⟩],
      nextProgramId := pid + 1 }
  let vid := db3.nextVideoId
  let db4 : DB :=
    { db3 with
      videos := db3.videos ++ [⟨vid, pid, t.path, t.videoDraft.file_hash, t.videoDraft.meta⟩],
      nextVideoId := vid + 1 }
  (db4, s1.2 ++ s2.2 ++ [DBOp.insertProgram pid, DBOp.insertVideo vid])

/-- `for task in save_tasks: await task` — the queued writes applied
sequentially in queue (= walk) order; the second component collects the
operation trace of each task, in order. -/
def applyTasks : DB → List SaveTask → DB × List (List DBOp)
  | db, [] => (db, [])
  | db, t :: ts =>
    let r := applySave db t
    let rest := applyTasks r.1 ts
    (rest.1, r.2 :: rest.2)

/-- The cross-worker skip of the deletion phase: the row's path does
not start with the scanned directory, but starts with one of the
configured recorded folders (string `startswith`, as in the source). -/
def staleSkip (cfg : List String) (dir : String) (v : VideoRow) : Bool :=
  !(strStartsWith v.file_path dir) && cfg.any (fun d => strStartsWith v.file_path d)

/-- A snapshot row that the deletion phase will actually delete. -/
def staleBad (cfg : List String) (dir : String) (existing : List String) (v : VideoRow) : Bool :=
  !(staleSkip cfg dir v) && !(existing.contains v.file_path)

/-- The stale-row deletion phase: iterate over the snapshot returned by
`RecordedVideo.all()`, skip sibling-owned rows, and delete (with
cascade) every remaining row whose path is not in `existing_files`,
logging each deletion. -/
def staleDelete (cfg : List String) (dir : String) (existing : List String) :
    DB → List VideoRow → DB × List LogEvent × List DBOp
  | db, [] => (db, [], [])
  | db, v :: snapshot =>
    if staleSkip cfg dir v then staleDelete cfg dir existing db snapshot
    else if existing.contains v.file_path then staleDelete cfg dir existing db snapshot
    else
      let r := staleDelete cfg dir existing (deleteProgramCascade db v.recorded_program_id) snapshot
      (r.1, LogEvent.deleteRecorded v.file_path :: r.2.1,
        DBOp.deleteProgram v.recorded_program_id :: r.2.2)

/-- Result of one successful commit transaction. -/
structure CommitResult where
  db : DB
  logs : List LogEvent
  taskOps : List (List DBOp)
  staleOps : List DBOp
deriving DecidableEq

/-- The body of one (successful) transaction of `updateSingle`: all
queued writes in order, then the stale-row deletions over the state
those writes produced. -/
def applyBatch (cfg : List String) (dir : String) (existing : List String)
    (tasks : List SaveTask) (db : DB) : CommitResult :=
  let w := applyTasks db tasks
  let d := staleDelete cfg dir existing w.1 w.1.videos
  ⟨d.1, d.2.1, w.2, d.2.2⟩

/-- What one commit attempt does, as scheduled by the environment:
either it runs to completion, or the store raises `OperationalError`
after `tasksStarted` of the queued coroutines have begun (all state
changes of the attempt are rolled back). -/
inductive AttemptResult where
  | success
  | lockError (tasksStarted : Nat)

/-- How a worker's run ended: transaction committed, retry budget
exhausted (`Failed to save to database`), or an unexpected exception
reached the outer handler. -/
inductive TermKind where
  | committed
  | exhausted
  | crashed
deriving DecidableEq

/-- Observable outcome of one `updateSingle` run. -/
structure RunResult where
  db : DB
  logs : List LogEvent
  term : TermKind
deriving DecidableEq

/-- The `while retry_count > 0` commit loop.  `consumed` counts how
many of the queued `save` coroutines have already been awaited by an
earlier attempt; a Python coroutine can be awaited only once, so a
retry that re-awaits a consumed coroutine raises `RuntimeError`, which
is not an `OperationalError` and therefore escapes to the outer
`except Exception` handler (logged, run ends, state unchanged).  A
failed attempt is rolled back by the transaction context.  On success
the loop breaks; after the loop, `retry_count` strictly between 0 and
10 logs `Retry succeeded`, and 0 logs the exhaustion error. -/
def retryLoop (sched : Nat → AttemptResult) (cfg : List String) (dir : String)
    (existing : List String) (tasks : List SaveTask) (db : DB) :
    Nat → Nat → Nat → List LogEvent → RunResult
  | 0, _, _, logs => ⟨db, logs ++ [.saveFailed], .exhausted⟩
  | rc + 1, attempt, consumed, logs =>
    if 0 < consumed ∧ 0 < tasks.length then
      ⟨db, logs ++ [.unexpectedError], .crashed⟩
    else
      match sched attempt with
      | .success =>
        let c := applyBatch cfg dir existing tasks db
        ⟨c.db, (logs ++ c.logs) ++ (if rc + 1 < 10 then [.retrySucceeded] else []), .committed⟩
      | .lockError k =>
        retryLoop sched cfg dir existing tasks db rc (attempt + 1)
          (max consumed (min k tasks.length)) (logs ++ [.dbLocked rc])

/-- `RecordedVideo.updateSingle(directory)`: scan the walked files of
one directory, then commit the batch under the retry loop, starting
with `retry_count = 10`. -/
def updateSingle (cfg : List String) (dir : String) (files : List FileMeta)
    (sched : Nat → AttemptResult) (db : DB) : RunResult :=
  let scan := scanFiles db files
  retryLoop sched cfg dir scan.existing scan.tasks db 10 0 0 scan.logs

/-- `RecordedProgram.all().delete()`: every program row is deleted and
the cascade removes every video row owned by one of them. -/
def deleteAllPrograms (db : DB) : DB :=
  { db with
    programs := [],
    videos := db.videos.filter (fun v => !(db.programs.any (fun p => p.id == v.recorded_program_id))) }

/-- Outcome of one orchestrator run; the flag records whether the
empty-configuration delete-all branch executed. -/
structure UpdateResult where
  db : DB
  deleteAllPerformed : Bool
deriving DecidableEq

/-- `RecordedVideo.update()`: one worker per configured directory, then
the empty-configuration policy.  The workers run in separate processes
against the shared store; the model sequentialises the gather (their
interleavings are not modelled), which is exact in the empty case the
delete-all policy concerns. -/
def update (cfg : List String) (env : String → List FileMeta)
    (sched : String → Nat → AttemptResult) (db : DB) : UpdateResult :=
  let db1 := cfg.foldl (fun d dir => (updateSingle cfg dir (env dir) (sched dir) d).db) db
  if cfg.length = 0 then ⟨deleteAllPrograms db1, true⟩ else ⟨db1, false⟩

/-- A file sitting in a directory of the walked tree. -/
structure FileNode where
  name : String
  hash : Option String
  analysis : AnalyzeOutcome
deriving DecidableEq

mutual
/-- A directory of the scanned tree: whether `scandir` fails on it
(permission error), its files, and its subdirectories. -/
inductive DirTree where
  | node (unreadable : Bool) (files : List FileNode) (subdirs : SubdirList)
/-- Ordered subdirectory entries: name, whether the entry is a symbolic
link to a directory, and the tree behind it. -/
inductive SubdirList where
  | nil
  | cons (name : String) (isSymlink : Bool) (tree : DirTree) (rest : SubdirList)
end

mutual
/-- `os.walk(top, followlinks=...)` flattened into the per-file order
in which `updateSingle` consumes it (top-down: the directory's own
files, then each subdirectory in turn).  Per CPython semantics with the
default `onerror=None`, a directory whose `scandir` fails is skipped
silently, and a symlinked directory is descended into only when
`followlinks` is true. -/
def walkDir (followlinks : Bool) (dirPath : String) : DirTree → List FileMeta
  | .node unreadable files subdirs =>
    if unreadable then []
    else
      files.map (fun n => ⟨dirPath, n.name, n.hash, n.analysis⟩) ++
        walkSubs followlinks dirPath subdirs
/-- Walk of the subdirectory entries of one directory, in order. -/
def walkSubs (followlinks : Bool) (dirPath : String) : SubdirList → List FileMeta
  | .nil => []
  | .cons name isSym tree rest =>
    (if isSym ∧ !followlinks then []
     else walkDir followlinks (dirPath ++ "/" ++ name) tree) ++
      walkSubs followlinks dirPath rest
end

/-- Path `p` lies under directory `d` in the filesystem sense: `p` is
inside the directory, i.e. extends it past a separator. -/
def pathUnder (d p : String) : Bool := strStartsWith p (d ++ "/")

/-- A schedule on which every commit attempt succeeds. -/
def schedOk : Nat → AttemptResult := fun _ => .success

/-- A schedule on which every commit attempt hits a database lock while
the first queued save coroutine is running. -/
def schedLockOnFirstSave : Nat → AttemptResult := fun _ => .lockError 1

/-- The empty catalog. -/
def emptyDB : DB := ⟨[], [], [], 1, 1⟩

/-- Consistency of the external analyzer's outputs for one file: the
hash stored in the draft row equals the hash `calculateTSFileHash`
computes, both being derived from the same file content. -/
def hashConsistent (f : FileMeta) : Bool :=
  match f.hash, f.analysis with
  | some h, .ok vd _ _ => vd.file_hash == h
  | _, _ => true

/-- Structural sanity of a catalog state: paths identify at most one
row, programs are owned by at most one video, and all primary keys are
below the autoincrement counters. -/
abbrev WellFormed (db : DB) : Prop :=
  (db.videos.map (fun v => v.file_path)).Nodup ∧
  (db.videos.map (fun v => v.recorded_program_id)).Nodup ∧
  (∀ v ∈ db.videos, v.id < db.nextVideoId) ∧
  (∀ p ∈ db.programs, p.id < db.nextProgramId) ∧
  (∀ v ∈ db.videos, v.recorded_program_id < db.nextProgramId)

/-- The queued write that one scanned file contributes, if any
(pointwise description of the scan loop's task queue). -/
def taskOf (db : DB) (f : FileMeta) : Option SaveTask :=
  if validFile f then
    match f.hash with
    | none => none
    | some h =>
      match getOrNoneByPath db f.path with
      | none =>
        match f.analysis with
        | .ok vd pd cd => some ⟨none, vd, f.path, pd, cd⟩
        | _ => none
      | some cur =>
        if cur.file_hash = h then none
        else
          match f.analysis with
          | .ok vd pd cd => some ⟨some cur, vd, f.path, pd, cd⟩
          | _ => none
  else none

/-- The log lines that one scanned file contributes (pointwise
description of the scan loop's log output). -/
def logsOf (db : DB) (f : FileMeta) : List LogEvent :=
  if validFile f then
    match f.hash with
    | none => [.tooSmall f.path]
    | some h =>
      match getOrNoneByPath db f.path with
      | none =>
        match f.analysis with
        | .ok _ _ _ => [.addRecorded f.path]
        | .unparseable => [.unparseable f.path]
        | .failure => [.analyzeFailed f.path]
      | some cur =>
        if cur.file_hash = h then []
        else
          match f.analysis with
          | .ok _ _ _ => [.updateRecorded f.path]
          | .unparseable => [.unparseable f.path]
          | .failure => [.analyzeFailed f.path]
  else []

/-- The seen-set entry that one scanned file contributes. -/
def existingOf (f : FileMeta) : List String :=
  if validFile f then [f.path] else []

/-- The `ChangeDetector` classification implicit in the scan branches. -/
inductive Classification where
  | isNew
  | changed
  | unchanged
  | tooSmall
  | filtered
deriving DecidableEq

/-- Classify one candidate exactly as the scan loop's conditionals do. -/
def classify (db : DB) (f : FileMeta) : Classification :=
  if validFile f then
    match f.hash with
    | none => .tooSmall
    | some h =>
      match getOrNoneByPath db f.path with
      | none => .isNew
      | some cur => if cur.file_hash = h then .unchanged else .changed
  else .filtered

/-- Pids of the rows a task list replaces (the `current` arguments). -/
def curPids (ts : List SaveTask) : List Nat :=
  ts.filterMap (fun t => t.current.map (fun v => v.recorded_program_id))

/-- The cascade delete a task performs before inserting, if any. -/
def dropCur (db : DB) (t : SaveTask) : DB :=
  match t.current with
  | none => db
  | some cur => deleteProgramCascade db cur.recorded_program_id

/-- The video row a task inserts, given the state it runs in. -/
def newVideoOf (db : DB) (t : SaveTask) : VideoRow :=
  ⟨db.nextVideoId, db.nextProgramId, t.path, t.videoDraft.file_hash, t.videoDraft.meta⟩

/-- The program row a task inserts, given the state it runs in. -/
def newProgramOf (db : DB) (t : SaveTask) : ProgramRow :=
  ⟨db.nextProgramId, t.channelDraft.map (fun c => c.id), t.programDraft.title⟩

/-- The video rows a task list inserts, in order. -/
def newRows (db : DB) : List SaveTask → List VideoRow
  | [] => []
  | t :: ts => newVideoOf db t :: newRows (applySave db t).1 ts

/-- Pids of the snapshot rows the deletion phase deletes. -/
def stalePids (cfg : List String) (dir : String) (existing : List String)
    (l : List VideoRow) : List Nat :=
  (l.filter (staleBad cfg dir existing)).map (fun v => v.recorded_program_id)

/-- The catalog rows at one path. -/
def rowsAt (db : DB) (p : String) : List VideoRow :=
  db.videos.filter (fun v => v.file_path == p)

/-- The channel rows one queued write appends (a fresh draft is
inserted; a reused row changes nothing). -/
def chanExt (db : DB) (t : SaveTask) : List ChannelRow :=
  match resolveChannel db t.channelDraft with
  | some (c, false) => [c]
  | _ => []

/-- Shape of the operation trace of one queued write: an optional
replacement delete, then an optional channel persist, then the program
insert, then the video insert — `Channel`, `Program`, `RecordingFile`
in foreign-key order. -/
def taskOpsShape (t : SaveTask) (ops : List DBOp) : Prop :=
  ∃ dOps cOps pid vid,
    ops = dOps ++ cOps ++ [DBOp.insertProgram pid, DBOp.insertVideo vid] ∧
    ((t.current = none ∧ dOps = []) ∨
      (∃ cur, t.current = some cur ∧ dOps = [DBOp.deleteProgram cur.recorded_program_id])) ∧
    ((t.channelDraft = none ∧ cOps = []) ∨
      (∃ c, t.channelDraft = some c ∧
        (cOps = [DBOp.insertChannel c.id] ∨ cOps = [DBOp.updateChannel c.id])))


/-- A valid new recording file whose analysis succeeds, with the
analyzer-computed hash equal to the scan hash. -/
def exGoodFile : FileMeta := ⟨"/rec", "a.ts", some "h1", .ok ⟨"h1", "meta"⟩ ⟨"Title"⟩ none⟩

/-- A valid file whose metadata analysis reports unparseable. -/
def exUnparsFile : FileMeta := ⟨"/rec", "u.ts", some "h2", .unparseable⟩

/-- A valid file below the minimum size threshold (hash raises). -/
def exTooSmallFile : FileMeta := ⟨"/rec", "s.ts", none, .ok ⟨"h3", "meta"⟩ ⟨"T3"⟩ none⟩

/-- A catalog with one channel, two programs and two owned videos. -/
def exCatalog : DB :=
  ⟨[⟨"ch1", "NHK"⟩], [⟨1, some "ch1", "A"⟩, ⟨2, none, "B"⟩],
   [⟨1, 1, "/rec/u.ts", "hOld", "m"⟩, ⟨2, 2, "/rec/s.ts", "hOld2", "m"⟩], 3, 3⟩

/-- A catalog holding one recording under `/recordings`, a sibling of
`/rec` in string-prefix terms. -/
def sibCatalog : DB := ⟨[], [⟨1, none, "t"⟩], [⟨1, 1, "/recordings/x.ts", "h", "m"⟩], 2, 2⟩

/-- A tree whose only content sits inside an unreadable subdirectory. -/
def exTree : DirTree :=
  .node false [] (.cons "sub" false (.node true [⟨"a.ts", some "h", .ok ⟨"h", "m"⟩ ⟨"T"⟩ none⟩] .nil) .nil)

/-- A changed version of the file at `/rec/u.ts`: new hash, analysis
succeeds. -/
def exChangedFile : FileMeta := ⟨"/rec", "u.ts", some "hNew", .ok ⟨"hNew", "m2"⟩ ⟨"T2"⟩ none⟩

/-- The catalog row exCatalog holds at `/rec/u.ts`. -/
def exOldRow : VideoRow := ⟨1, 1, "/rec/u.ts", "hOld", "m"⟩

/-- The catalog row exCatalog holds at `/rec/s.ts`. -/
def exSmallRow : VideoRow := ⟨2, 2, "/rec/s.ts", "hOld2", "m"⟩

/-! ### Characterization of the scan loop -/

/-- One scan iteration appends its per-file contributions to the three
accumulator components. -/
lemma scanStep_eq (db : DB) (acc : ScanAcc) (f : FileMeta) :
    scanStep db acc f =
      ⟨acc.existing ++ existingOf f, acc.tasks ++ (taskOf db f).toList,
       acc.logs ++ logsOf db f⟩ := by
  unfold scanStep existingOf taskOf logsOf validFile
  by_cases h1 : strStartsWith f.name "._"
  · simp [h1]
  · by_cases h2 : pathSuffix f.name ∈ tsSuffixes
    · cases hh : f.hash with
      | none => simp [h1, h2, hh]
      | some h =>
        cases hcur : getOrNoneByPath db f.path with
        | none => cases ha : f.analysis <;> simp [h1, h2, hh, hcur, ha, scanNewOrChanged]
        | some cur =>
          by_cases hsame : cur.file_hash = h
          · simp [h1, h2, hh, hcur, hsame]
          · cases ha : f.analysis <;> simp [h1, h2, hh, hcur, hsame, ha, scanNewOrChanged]
    · simp [h1, h2]

/-- The scan of a file list is the pointwise concatenation of the
per-file contributions. -/
lemma scanFiles_go (db : DB) (files : List FileMeta) (acc : ScanAcc) :
    files.foldl (scanStep db) acc =
      ⟨acc.existing ++ (files.map existingOf).flatten,
       acc.tasks ++ files.filterMap (taskOf db),
       acc.logs ++ (files.map (logsOf db)).flatten⟩ := by
  induction files generalizing acc with
  | nil => simp
  | cons f fs ih =>
    rw [List.foldl_cons, scanStep_eq, ih]
    cases h : taskOf db f <;>
      simp [List.filterMap_cons, h, List.append_assoc]

/-- The seen set is exactly the paths of the files passing both
filters, in walk order. -/
lemma scan_existing (db : DB) (files : List FileMeta) :
    (scanFiles db files).existing =
      (files.filter (fun f => validFile f)).map FileMeta.path := by
  rw [scanFiles, scanFiles_go]
  simp only [ScanAcc.mk.injEq]
  induction files with
  | nil => rfl
  | cons f fs ih =>
    by_cases h : validFile f <;>
      simp_all [existingOf, List.filter_cons, h]

/-- The task queue is exactly the per-file queued writes, in walk
order. -/
lemma scan_tasks (db : DB) (files : List FileMeta) :
    (scanFiles db files).tasks = files.filterMap (taskOf db) := by
  rw [scanFiles, scanFiles_go]
  simp

/-- The scan log is the concatenation of the per-file logs. -/
lemma scan_logs (db : DB) (files : List FileMeta) :
    (scanFiles db files).logs = (files.map (logsOf db)).flatten := by
  rw [scanFiles, scanFiles_go]
  simp

/-! ### Facts about queued writes and their application -/

/-- Everything the construction of a queued write guarantees. -/
lemma taskOf_spec (db : DB) (f : FileMeta) (t : SaveTask) (h : taskOf db f = some t) :
    validFile f = true ∧ t.path = f.path ∧ t.current = getOrNoneByPath db f.path ∧
    ∃ h0 vd pd cd, f.hash = some h0 ∧ f.analysis = AnalyzeOutcome.ok vd pd cd ∧
      t.videoDraft = vd ∧ t.programDraft = pd ∧ t.channelDraft = cd ∧
      (∀ cur, getOrNoneByPath db f.path = some cur → cur.file_hash ≠ h0) := by
  by_cases hv : validFile f
  · unfold taskOf at h
    rw [if_pos hv] at h
    cases hh : f.hash with
    | none => simp [hh] at h
    | some h0 =>
      simp only [hh] at h
      cases hcur : getOrNoneByPath db f.path with
      | none =>
        simp only [hcur] at h
        cases ha : f.analysis with
        | ok vd pd cd =>
          simp only [ha] at h
          cases h
          exact ⟨hv, rfl, rfl, h0, vd, pd, cd, rfl, rfl, rfl, rfl, rfl,
            fun cur hc => Option.noConfusion hc⟩
        | unparseable => simp [ha] at h
        | failure => simp [ha] at h
      | some cur =>
        simp only [hcur] at h
        by_cases hsame : cur.file_hash = h0
        · rw [if_pos hsame] at h
          cases h
        · rw [if_neg hsame] at h
          cases ha : f.analysis with
          | ok vd pd cd =>
            simp only [ha] at h
            cases h
            refine ⟨hv, rfl, rfl, h0, vd, pd, cd, rfl, rfl, rfl, rfl, rfl, ?_⟩
            intro cur1 hc
            cases hc
            exact hsame
          | unparseable => simp [ha] at h
          | failure => simp [ha] at h
  · unfold taskOf at h
    rw [if_neg hv] at h
    cases h

/-- `find?` returns the head of the filtered list. -/
lemma find?_eq_head_filter {α : Type} (p : α → Bool) (l : List α) :
    l.find? p = (l.filter p).head? := by
  induction l with
  | nil => rfl
  | cons a l ih =>
    by_cases h : p a
    · rw [List.find?_cons_of_pos _ h, List.filter_cons_of_pos h]
      rfl
    · rw [List.find?_cons_of_neg _ h, List.filter_cons_of_neg h, ih]

/-- The path lookup returns the first row of `rowsAt`. -/
lemma getOrNoneByPath_eq (db : DB) (p : String) :
    getOrNoneByPath db p = (rowsAt db p).head? :=
  find?_eq_head_filter _ _

/-- A channel draft resolves to `none` exactly when there is none. -/
lemma resolveChannel_eq_none (db : DB) (c? : Option ChannelRow) :
    resolveChannel db c? = none ↔ c? = none := by
  cases c? with
  | none => simp [resolveChannel]
  | some c0 =>
    simp only [resolveChannel]
    cases hf : db.channels.find? (fun ec => ec.id == c0.id) <;> simp [hf]

/-- The resolved channel keeps the draft's identity. -/
lemma resolveChannel_id (db : DB) (c? : Option ChannelRow) (c : ChannelRow) (b : Bool)
    (h : resolveChannel db c? = some (c, b)) : c?.map (fun x => x.id) = some c.id := by
  cases c? with
  | none => cases h
  | some c0 =>
    simp only [resolveChannel] at h
    cases hf : db.channels.find? (fun ec => ec.id == c0.id) with
    | none =>
      rw [hf] at h
      cases h
      rfl
    | some ec =>
      rw [hf] at h
      cases h
      have hid := List.find?_some hf
      simp only [beq_iff_eq] at hid
      simp [hid]

/-- `deleteProgramCascade` leaves channels and counters alone. -/
@[simp] lemma deleteProgramCascade_channels (db : DB) (pid : Nat) :
    (deleteProgramCascade db pid).channels = db.channels := rfl

@[simp] lemma deleteProgramCascade_nextProgramId (db : DB) (pid : Nat) :
    (deleteProgramCascade db pid).nextProgramId = db.nextProgramId := rfl

@[simp] lemma deleteProgramCascade_nextVideoId (db : DB) (pid : Nat) :
    (deleteProgramCascade db pid).nextVideoId = db.nextVideoId := rfl

/-- `dropCur` leaves channels and counters alone. -/
@[simp] lemma dropCur_channels (db : DB) (t : SaveTask) :
    (dropCur db t).channels = db.channels := by
  unfold dropCur
  cases t.current <;> simp

@[simp] lemma dropCur_nextProgramId (db : DB) (t : SaveTask) :
    (dropCur db t).nextProgramId = db.nextProgramId := by
  unfold dropCur
  cases t.current <;> simp

@[simp] lemma dropCur_nextVideoId (db : DB) (t : SaveTask) :
    (dropCur db t).nextVideoId = db.nextVideoId := by
  unfold dropCur
  cases t.current <;> simp

/-- Channels after one queued write. -/
lemma applySave_channels (db : DB) (t : SaveTask) :
    (applySave db t).1.channels = db.channels ++ chanExt db t := by
  unfold applySave chanExt
  cases hrc : resolveChannel db t.channelDraft with
  | none => cases hc : t.current <;> simp [hrc, hc, dropCur, deleteProgramCascade]
  | some cb =>
    obtain ⟨c, b⟩ := cb
    cases b <;> cases hc : t.current <;> simp [hrc, hc, dropCur, deleteProgramCascade]

/-- Videos after one queued write. -/
lemma applySave_videos (db : DB) (t : SaveTask) :
    (applySave db t).1.videos = (dropCur db t).videos ++ [newVideoOf db t] := by
  unfold applySave newVideoOf
  cases hrc : resolveChannel db t.channelDraft with
  | none => cases hc : t.current <;> simp [hrc, hc, dropCur, deleteProgramCascade]
  | some cb =>
    obtain ⟨c, b⟩ := cb
    cases b <;> cases hc : t.current <;> simp [hrc, hc, dropCur, deleteProgramCascade]

/-- Programs after one queued write. -/
lemma applySave_programs (db : DB) (t : SaveTask) :
    (applySave db t).1.programs = (dropCur db t).programs ++ [newProgramOf db t] := by
  unfold applySave newProgramOf
  cases hrc : resolveChannel db t.channelDraft with
  | none =>
    have hid : t.channelDraft.map (fun c => c.id) = none := by
      rw [(resolveChannel_eq_none db t.channelDraft).mp hrc]
      rfl
    cases hc : t.current <;> simp [hrc, hc, hid, dropCur, deleteProgramCascade]
  | some cb =>
    obtain ⟨c, b⟩ := cb
    have hid := resolveChannel_id db t.channelDraft c b hrc
    cases b <;> cases hc : t.current <;> simp [hrc, hc, hid, dropCur, deleteProgramCascade]

/-- Counters after one queued write. -/
@[simp] lemma applySave_nextProgramId (db : DB) (t : SaveTask) :
    (applySave db t).1.nextProgramId = db.nextProgramId + 1 := by
  unfold applySave
  cases hrc : resolveChannel db t.channelDraft with
  | none => cases hc : t.current <;> simp [hrc, hc, deleteProgramCascade]
  | some cb =>
    obtain ⟨c, b⟩ := cb
    cases b <;> cases hc : t.current <;> simp [hrc, hc, deleteProgramCascade]

@[simp] lemma applySave_nextVideoId (db : DB) (t : SaveTask) :
    (applySave db t).1.nextVideoId = db.nextVideoId + 1 := by
  unfold applySave
  cases hrc : resolveChannel db t.channelDraft with
  | none => cases hc : t.current <;> simp [hrc, hc, deleteProgramCascade]
  | some cb =>
    obtain ⟨c, b⟩ := cb
    cases b <;> cases hc : t.current <;> simp [hrc, hc, deleteProgramCascade]

/-- The operation trace of one queued write, explicitly. -/
lemma applySave_snd (db : DB) (t : SaveTask) :
    (applySave db t).2 =
      (match t.current with
       | none => []
       | some cur => [DBOp.deleteProgram cur.recorded_program_id]) ++
      (match resolveChannel db t.channelDraft with
       | none => []
       | some (c, true) => [DBOp.updateChannel c.id]
       | some (c, false) => [DBOp.insertChannel c.id]) ++
      [DBOp.insertProgram db.nextProgramId, DBOp.insertVideo db.nextVideoId] := by
  unfold applySave
  cases hrc : resolveChannel db t.channelDraft with
  | none => cases hc : t.current <;> simp [hrc, hc, deleteProgramCascade]
  | some cb =>
    obtain ⟨c, b⟩ := cb
    cases b <;> cases hc : t.current <;> simp [hrc, hc, deleteProgramCascade]

/-- The operation trace of one queued write has the documented shape:
optional replacement delete, then optional channel persist, then
program insert, then video insert. -/
lemma applySave_shape (db : DB) (t : SaveTask) : taskOpsShape t (applySave db t).2 := by
  rw [applySave_snd]
  unfold taskOpsShape
  cases hrc : resolveChannel db t.channelDraft with
  | none =>
    have hd := (resolveChannel_eq_none db t.channelDraft).mp hrc
    cases hc : t.current with
    | none =>
      exact ⟨[], [], db.nextProgramId, db.nextVideoId, by simp, Or.inl ⟨rfl, rfl⟩, Or.inl ⟨hd, rfl⟩⟩
    | some cur =>
      exact ⟨[DBOp.deleteProgram cur.recorded_program_id], [], db.nextProgramId, db.nextVideoId,
        by simp, Or.inr ⟨cur, rfl, rfl⟩, Or.inl ⟨hd, rfl⟩⟩
  | some cb =>
    obtain ⟨c, b⟩ := cb
    have hcd : ∃ c0, t.channelDraft = some c0 ∧ c0.id = c.id := by
      cases hc0 : t.channelDraft with
      | none => rw [hc0] at hrc; cases hrc
      | some c0 =>
        have hmap := resolveChannel_id db t.channelDraft c b hrc
        rw [hc0] at hmap
        simp only [Option.map_some', Option.some.injEq] at hmap
        exact ⟨c0, rfl, hmap⟩
    obtain ⟨c0, hc0, hcid⟩ := hcd
    cases b with
    | true =>
      cases hc : t.current with
      | none =>
        exact ⟨[], [DBOp.updateChannel c.id], db.nextProgramId, db.nextVideoId,
          by simp, Or.inl ⟨rfl, rfl⟩, Or.inr ⟨c0, hc0, Or.inr (by rw [hcid])⟩⟩
      | some cur =>
        exact ⟨[DBOp.deleteProgram cur.recorded_program_id], [DBOp.updateChannel c.id],
          db.nextProgramId, db.nextVideoId,
          by simp, Or.inr ⟨cur, rfl, rfl⟩, Or.inr ⟨c0, hc0, Or.inr (by rw [hcid])⟩⟩
    | false =>
      cases hc : t.current with
      | none =>
        exact ⟨[], [DBOp.insertChannel c.id], db.nextProgramId, db.nextVideoId,
          by simp, Or.inl ⟨rfl, rfl⟩, Or.inr ⟨c0, hc0, Or.inl (by rw [hcid])⟩⟩
      | some cur =>
        exact ⟨[DBOp.deleteProgram cur.recorded_program_id], [DBOp.insertChannel c.id],
          db.nextProgramId, db.nextVideoId,
          by simp, Or.inr ⟨cur, rfl, rfl⟩, Or.inr ⟨c0, hc0, Or.inl (by rw [hcid])⟩⟩

/-! ### Closed forms for the commit phase -/

/-- Queued writes only ever append channel rows. -/
lemma applyTasks_channels (ts : List SaveTask) (db : DB) :
    ∃ ext, (applyTasks db ts).1.channels = db.channels ++ ext := by
  induction ts generalizing db with
  | nil => exact ⟨[], by simp [applyTasks]⟩
  | cons t ts ih =>
    obtain ⟨ext, hext⟩ := ih (applySave db t).1
    refine ⟨chanExt db t ++ ext, ?_⟩
    show (applyTasks (applySave db t).1 ts).1.channels = _
    rw [hext, applySave_channels, List.append_assoc]

/-- The program counter advances once per queued write. -/
lemma applyTasks_nextProgramId (ts : List SaveTask) (db : DB) :
    (applyTasks db ts).1.nextProgramId = db.nextProgramId + ts.length := by
  induction ts generalizing db with
  | nil => simp [applyTasks]
  | cons t ts ih =>
    show (applyTasks (applySave db t).1 ts).1.nextProgramId = _
    rw [ih, applySave_nextProgramId, List.length_cons]
    omega

/-- The video counter advances once per queued write. -/
lemma applyTasks_nextVideoId (ts : List SaveTask) (db : DB) :
    (applyTasks db ts).1.nextVideoId = db.nextVideoId + ts.length := by
  induction ts generalizing db with
  | nil => simp [applyTasks]
  | cons t ts ih =>
    show (applyTasks (applySave db t).1 ts).1.nextVideoId = _
    rw [ih, applySave_nextVideoId, List.length_cons]
    omega

/-- Membership in `curPids`. -/
lemma mem_curPids (ts : List SaveTask) (a : Nat) :
    a ∈ curPids ts ↔ ∃ t ∈ ts, ∃ cur, t.current = some cur ∧ cur.recorded_program_id = a := by
  unfold curPids
  simp only [List.mem_filterMap, Option.map_eq_some']


/-- Closed form for the catalog's video table after all queued writes:
the old rows minus the replaced programs' cascades, then the inserted
rows, provided every replaced program id is an existing (below-counter)
id. -/
lemma applyTasks_videos (ts : List SaveTask) (db : DB)
    (hb : ∀ t ∈ ts, ∀ cur, t.current = some cur → cur.recorded_program_id < db.nextProgramId) :
    (applyTasks db ts).1.videos =
      db.videos.filter (fun v => v.recorded_program_id ∉ curPids ts) ++ newRows db ts := by
  induction ts generalizing db with
  | nil =>
    simp [applyTasks, newRows, curPids]
  | cons t ts ih =>
    have hb' : ∀ t' ∈ ts, ∀ cur, t'.current = some cur →
        cur.recorded_program_id < (applySave db t).1.nextProgramId := by
      intro t' ht' cur hcur
      rw [applySave_nextProgramId]
      exact Nat.lt_succ_of_lt (hb t' (List.mem_cons_of_mem _ ht') cur hcur)
    show (applyTasks (applySave db t).1 ts).1.videos = _
    rw [ih _ hb', applySave_videos, newRows]
    have hnew : (newVideoOf db t).recorded_program_id ∉ curPids ts := by
      intro hmem
      rw [mem_curPids] at hmem
      obtain ⟨t', ht', cur, hcur, hpid⟩ := hmem
      have := hb t' (List.mem_cons_of_mem _ ht') cur hcur
      rw [hpid] at this
      exact absurd this (by simp [newVideoOf])
    rw [List.filter_append]
    have h1 : [newVideoOf db t].filter (fun v => v.recorded_program_id ∉ curPids ts) =
        [newVideoOf db t] := by
      simp [hnew]
    rw [h1]
    have h2 : (dropCur db t).videos.filter (fun v => v.recorded_program_id ∉ curPids ts) =
        db.videos.filter (fun v => v.recorded_program_id ∉ curPids (t :: ts)) := by
      unfold dropCur
      cases hc : t.current with
      | none =>
        have : curPids (t :: ts) = curPids ts := by simp [curPids, List.filterMap_cons, hc]
        rw [this]
      | some cur =>
        have hcp : curPids (t :: ts) = cur.recorded_program_id :: curPids ts := by
          simp [curPids, List.filterMap_cons, hc]
        rw [hcp]
        unfold deleteProgramCascade
        simp only [List.filter_filter]
        apply List.filter_congr
        intro v _
        by_cases h3 : v.recorded_program_id = cur.recorded_program_id <;>
          by_cases h4 : v.recorded_program_id ∈ curPids ts <;>
            simp [h3, h4]
    rw [h2, List.append_assoc, List.singleton_append]

/-- The inserted rows carry the queued paths, in order. -/
lemma newRows_path (ts : List SaveTask) (db : DB) :
    (newRows db ts).map (fun v => v.file_path) = ts.map (fun t => t.path) := by
  induction ts generalizing db with
  | nil => rfl
  | cons t ts ih => simp [newRows, newVideoOf, ih]

/-- Program ids of inserted rows start at the counter. -/
lemma newRows_pid_ge (ts : List SaveTask) (db : DB) :
    ∀ v ∈ newRows db ts, db.nextProgramId ≤ v.recorded_program_id := by
  induction ts generalizing db with
  | nil => intro v hv; cases hv
  | cons t ts ih =>
    intro v hv
    rw [newRows] at hv
    rcases List.mem_cons.mp hv with h | h
    · subst h; exact Nat.le_refl _
    · have := ih (applySave db t).1 v h
      rw [applySave_nextProgramId] at this
      omega

/-- Video ids of inserted rows start at the counter. -/
lemma newRows_id_ge (ts : List SaveTask) (db : DB) :
    ∀ v ∈ newRows db ts, db.nextVideoId ≤ v.id := by
  induction ts generalizing db with
  | nil => intro v hv; cases hv
  | cons t ts ih =>
    intro v hv
    rw [newRows] at hv
    rcases List.mem_cons.mp hv with h | h
    · subst h; exact Nat.le_refl _
    · have := ih (applySave db t).1 v h
      rw [applySave_nextVideoId] at this
      omega

/-! ### Closed forms for the stale-row deletion phase and the retry loop -/

/-- Closed form of the deletion phase: it filters out exactly the
program ids of the snapshot rows that fail both checks, logging each. -/
lemma staleDelete_eq (cfg : List String) (dir : String) (existing : List String)
    (db : DB) (l : List VideoRow) :
    staleDelete cfg dir existing db l =
      ({ db with
          videos := db.videos.filter
            (fun v => v.recorded_program_id ∉ stalePids cfg dir existing l),
          programs := db.programs.filter
            (fun p => p.id ∉ stalePids cfg dir existing l) },
       (l.filter (staleBad cfg dir existing)).map (fun v => LogEvent.deleteRecorded v.file_path),
       (l.filter (staleBad cfg dir existing)).map
         (fun v => DBOp.deleteProgram v.recorded_program_id)) := by
  induction l generalizing db with
  | nil =>
    simp only [staleDelete, stalePids, List.filter_nil, List.map_nil]
    refine Prod.ext ?_ rfl
    simp
  | cons v l ih =>
    by_cases hskip : staleSkip cfg dir v
    · have hbad : ¬ staleBad cfg dir existing v = true := by
        simp [staleBad, hskip]
      rw [staleDelete, if_pos hskip, ih]
      have hsp : stalePids cfg dir existing (v :: l) = stalePids cfg dir existing l := by
        unfold stalePids
        rw [List.filter_cons_of_neg hbad]
      rw [hsp, List.filter_cons_of_neg hbad]
    · by_cases hcont : existing.contains v.file_path
      · have hcont' : v.file_path ∈ existing := by simpa using hcont
        have hbad : ¬ staleBad cfg dir existing v = true := by
          simp [staleBad, hskip, hcont']
        rw [staleDelete, if_neg hskip, if_pos hcont, ih]
        have hsp : stalePids cfg dir existing (v :: l) = stalePids cfg dir existing l := by
          unfold stalePids
          rw [List.filter_cons_of_neg hbad]
        rw [hsp, List.filter_cons_of_neg hbad]
      · have hcont' : v.file_path ∉ existing := by simpa using hcont
        have hbad : staleBad cfg dir existing v = true := by
          simp [staleBad, hskip, hcont']
        rw [staleDelete, if_neg hskip, if_neg hcont]
        simp only [ih]
        have hsp : stalePids cfg dir existing (v :: l) =
            v.recorded_program_id :: stalePids cfg dir existing l := by
          unfold stalePids
          rw [List.filter_cons_of_pos hbad, List.map_cons]
        rw [hsp, List.filter_cons_of_pos hbad, List.map_cons, List.map_cons]
        refine Prod.ext ?_ rfl
        simp only [deleteProgramCascade, List.filter_filter, DB.mk.injEq, true_and, and_true]
        refine ⟨?_, ?_⟩
        · apply List.filter_congr
          intro p _
          by_cases h3 : p.id = v.recorded_program_id <;>
            by_cases h4 : p.id ∈ stalePids cfg dir existing l <;>
              simp [h3, h4]
        · apply List.filter_congr
          intro w _
          by_cases h3 : w.recorded_program_id = v.recorded_program_id <;>
            by_cases h4 : w.recorded_program_id ∈ stalePids cfg dir existing l <;>
              simp [h3, h4]

/-- If no snapshot row fails both checks, the deletion phase is a
no-op. -/
lemma staleDelete_noop (cfg : List String) (dir : String) (existing : List String)
    (db : DB) (l : List VideoRow)
    (h : ∀ v ∈ l, staleBad cfg dir existing v = false) :
    staleDelete cfg dir existing db l = (db, [], []) := by
  rw [staleDelete_eq]
  have hf : l.filter (staleBad cfg dir existing) = [] := List.filter_eq_nil_iff.mpr (by
    intro v hv
    simp [h v hv])
  have hsp : stalePids cfg dir existing l = [] := by
    unfold stalePids
    rw [hf]
    rfl
  rw [hsp, hf]
  refine Prod.ext ?_ rfl
  simp

/-- Every video row surviving the deletion phase run on its own
snapshot passes one of the two checks. -/
lemma staleDelete_survivor (cfg : List String) (dir : String) (existing : List String)
    (db : DB) :
    ∀ v ∈ (staleDelete cfg dir existing db db.videos).1.videos,
      v ∈ db.videos ∧ staleBad cfg dir existing v = false := by
  intro v hv
  rw [staleDelete_eq] at hv
  simp only [List.mem_filter, decide_eq_true_eq] at hv
  obtain ⟨hmem, hnot⟩ := hv
  refine ⟨hmem, ?_⟩
  by_contra hbad
  have hbad' : staleBad cfg dir existing v = true := by
    cases hb : staleBad cfg dir existing v
    · exact absurd hb hbad
    · rfl
  have : v.recorded_program_id ∈ stalePids cfg dir existing db.videos := by
    unfold stalePids
    exact List.mem_map_of_mem _ (List.mem_filter.mpr ⟨hmem, hbad'⟩)
  exact hnot this

/-- A row whose path is in the seen set, and whose program id no other
row shares, survives the deletion phase. -/
lemma staleDelete_keeps (cfg : List String) (dir : String) (existing : List String)
    (db : DB) (r : VideoRow) (hr : r ∈ db.videos)
    (hex : existing.contains r.file_path = true)
    (huniq : ∀ w ∈ db.videos, w.recorded_program_id = r.recorded_program_id → w = r) :
    r ∈ (staleDelete cfg dir existing db db.videos).1.videos := by
  rw [staleDelete_eq]
  simp only [List.mem_filter, decide_eq_true_eq]
  refine ⟨hr, ?_⟩
  intro hmem
  unfold stalePids at hmem
  simp only [List.mem_map, List.mem_filter] at hmem
  obtain ⟨w, ⟨hw, hbad⟩, hpid⟩ := hmem
  have hwr : w = r := huniq w hw hpid
  subst hwr
  have hex' : w.file_path ∈ existing := by simpa using hex
  simp [staleBad, hex'] at hbad

/-- The retry loop either commits the batch or leaves the catalog
untouched. -/
lemma retryLoop_db (sched : Nat → AttemptResult) (cfg : List String) (dir : String)
    (existing : List String) (tasks : List SaveTask) (db : DB) :
    ∀ rc att cons logs,
      (retryLoop sched cfg dir existing tasks db rc att cons logs).db = db ∨
      (retryLoop sched cfg dir existing tasks db rc att cons logs).db =
        (applyBatch cfg dir existing tasks db).db := by
  intro rc
  induction rc with
  | zero => intro att cons logs; exact Or.inl rfl
  | succ rc ih =>
    intro att cons logs
    rw [retryLoop]
    by_cases hcr : 0 < cons ∧ 0 < tasks.length
    · rw [if_pos hcr]
      exact Or.inl rfl
    · rw [if_neg hcr]
      cases hs : sched att with
      | success => exact Or.inr rfl
      | lockError k => exact ih (att + 1) (max cons (min k tasks.length)) (logs ++ [.dbLocked rc])

/-- A run either commits its batch or leaves the catalog untouched. -/
lemma updateSingle_db (cfg : List String) (dir : String) (files : List FileMeta)
    (sched : Nat → AttemptResult) (db : DB) :
    (updateSingle cfg dir files sched db).db = db ∨
    (updateSingle cfg dir files sched db).db =
      (applyBatch cfg dir (scanFiles db files).existing (scanFiles db files).tasks db).db := by
  unfold updateSingle
  exact retryLoop_db sched cfg dir _ _ db 10 0 0 _

/-- Under a contention-free schedule a run commits at the first
attempt: final state, logs and termination are those of one batch. -/
lemma updateSingle_schedOk (cfg : List String) (dir : String) (files : List FileMeta)
    (db : DB) :
    updateSingle cfg dir files schedOk db =
      ⟨(applyBatch cfg dir (scanFiles db files).existing (scanFiles db files).tasks db).db,
       (scanFiles db files).logs ++
         (applyBatch cfg dir (scanFiles db files).existing (scanFiles db files).tasks db).logs,
       TermKind.committed⟩ := by
  unfold updateSingle
  rw [show (10 : Nat) = 9 + 1 from rfl, retryLoop]
  norm_num [schedOk]

/-! ### Walk, orchestrator and channel-preservation lemmas -/

/-- With `followlinks=False` a symlinked subdirectory contributes
nothing to the walk, whatever tree lies behind it. -/
lemma walkSubs_symlink (p nm : String) (t : DirTree) (rest : SubdirList) :
    walkSubs false p (.cons nm true t rest) = walkSubs false p rest := by
  simp [walkSubs]

/-- A directory whose `scandir` fails yields no files at all. -/
lemma walkDir_unreadable (fl : Bool) (p : String) (fs : List FileNode) (sub : SubdirList) :
    walkDir fl p (.node true fs sub) = [] := by
  simp [walkDir]

/-- An unreadable subdirectory is skipped silently — the walk of the
remaining entries is unchanged, and nothing else is produced. -/
lemma walkSubs_unreadable (p nm : String) (sym : Bool) (fs : List FileNode)
    (sub : SubdirList) (rest : SubdirList) :
    walkSubs false p (.cons nm sym (.node true fs sub) rest) = walkSubs false p rest := by
  cases sym <;> simp [walkSubs, walkDir]

/-- An invalid file contributes neither a queued write nor a log line. -/
lemma invalid_contributes_nothing (db : DB) (f : FileMeta) (h : validFile f = false) :
    taskOf db f = none ∧ logsOf db f = [] := by
  constructor
  · unfold taskOf
    rw [if_neg (by simp [h])]
  · unfold logsOf
    rw [if_neg (by simp [h])]

/-- The committed batch only appends channel rows. -/
lemma applyBatch_channels (cfg : List String) (dir : String) (existing : List String)
    (ts : List SaveTask) (db : DB) :
    ∃ ext, (applyBatch cfg dir existing ts db).db.channels = db.channels ++ ext := by
  obtain ⟨ext, hext⟩ := applyTasks_channels ts db
  refine ⟨ext, ?_⟩
  show (staleDelete cfg dir existing (applyTasks db ts).1 (applyTasks db ts).1.videos).1.channels = _
  rw [staleDelete_eq]
  exact hext

/-- A worker run only appends channel rows: no engine deletion ever
removes a `Channel`. -/
lemma updateSingle_channels (cfg : List String) (dir : String) (files : List FileMeta)
    (sched : Nat → AttemptResult) (db : DB) :
    ∃ ext, (updateSingle cfg dir files sched db).db.channels = db.channels ++ ext := by
  rcases updateSingle_db cfg dir files sched db with h | h
  · exact ⟨[], by simp [h]⟩
  · rw [h]
    exact applyBatch_channels cfg dir (scanFiles db files).existing (scanFiles db files).tasks db

/-- The delete-all policy touches no channel row. -/
lemma deleteAllPrograms_channels (db : DB) : (deleteAllPrograms db).channels = db.channels := rfl

/-- The worker fold of the orchestrator only appends channel rows. -/
lemma updateFold_channels (l : List String) (cfg : List String)
    (env : String → List FileMeta) (sched : String → Nat → AttemptResult) (db : DB) :
    ∃ ext,
      (l.foldl (fun d dir => (updateSingle cfg dir (env dir) (sched dir) d).db) db).channels =
        db.channels ++ ext := by
  induction l generalizing db with
  | nil => exact ⟨[], by simp⟩
  | cons dir l ih =>
    obtain ⟨e1, h1⟩ := updateSingle_channels cfg dir (env dir) (sched dir) db
    obtain ⟨e2, h2⟩ := ih (updateSingle cfg dir (env dir) (sched dir) db).db
    rw [List.foldl_cons]
    exact ⟨e1 ++ e2, by rw [h2, h1, List.append_assoc]⟩

/-- A whole orchestrator run only appends channel rows. -/
lemma update_channels (cfg : List String) (env : String → List FileMeta)
    (sched : String → Nat → AttemptResult) (db : DB) :
    ∃ ext, (update cfg env sched db).db.channels = db.channels ++ ext := by
  obtain ⟨ext, hext⟩ := updateFold_channels cfg cfg env sched db
  unfold update
  by_cases h : cfg.length = 0
  · rw [if_pos h]
    exact ⟨ext, by rw [deleteAllPrograms_channels]; exact hext⟩
  · rw [if_neg h]
    exact ⟨ext, hext⟩

/-- `RecordedProgram.all().delete()` empties the program table. -/
lemma deleteAllPrograms_programs (db : DB) : (deleteAllPrograms db).programs = [] := rfl

/-- Every video row owned by an existing program is cascade-deleted by
the delete-all policy. -/
lemma deleteAllPrograms_videos (db : DB) (v : VideoRow)
    (h : ∃ p ∈ db.programs, p.id = v.recorded_program_id) :
    v ∉ (deleteAllPrograms db).videos := by
  unfold deleteAllPrograms
  simp only [List.mem_filter]
  rintro ⟨-, hkeep⟩
  obtain ⟨p, hp, hpid⟩ := h
  have hany : db.programs.any (fun p => p.id == v.recorded_program_id) = true :=
    List.any_eq_true.mpr ⟨p, hp, by simp [hpid]⟩
  simp [hany] at hkeep

/-- With an empty configuration the orchestrator runs no worker and
executes the delete-all branch. -/
lemma update_empty (env : String → List FileMeta) (sched : String → Nat → AttemptResult)
    (db : DB) : update [] env sched db = ⟨deleteAllPrograms db, true⟩ := rfl

/-- With a non-empty configuration the delete-all branch is skipped. -/
lemma update_nonempty (cfg : List String) (env : String → List FileMeta)
    (sched : String → Nat → AttemptResult) (db : DB) (h : cfg ≠ []) :
    (update cfg env sched db).deleteAllPerformed = false := by
  unfold update
  rw [if_neg (by simpa using h)]

/-! ### Row lookup machinery for idempotence and frame lemmas -/

/-- Filtering by a key that appears at most once returns a singleton. -/
lemma filter_key_unique {α κ : Type} [DecidableEq κ] (key : α → κ) (l : List α)
    (hnd : (l.map key).Nodup) (k : κ) (r : α) (hr : r ∈ l) (hk : key r = k) :
    l.filter (fun a => key a == k) = [r] := by
  induction l with
  | nil => cases hr
  | cons a l ih =>
    simp only [List.map_cons, List.nodup_cons] at hnd
    rcases List.mem_cons.mp hr with h | h
    · subst h
      rw [List.filter_cons_of_pos (by simp [hk])]
      have hnil : l.filter (fun b => key b == k) = [] := by
        apply List.filter_eq_nil_iff.mpr
        intro b hb
        simp only [beq_iff_eq]
        intro hbk
        exact hnd.1 (by rw [hk, ← hbk]; exact List.mem_map_of_mem key hb)
      rw [hnil]
    · have hne : ¬ (key a == k) = true := by
        simp only [beq_iff_eq]
        intro hak
        exact hnd.1 (by rw [hak, ← hk]; exact List.mem_map_of_mem key h)
      rw [List.filter_cons, if_neg hne]
      exact ih hnd.2 h

/-- With unique paths, a successful lookup pins down the full row list
at that path. -/
lemma rowsAt_of_getOrNone (db : DB) (p : String) (r : VideoRow)
    (hnd : (db.videos.map (fun v => v.file_path)).Nodup)
    (h : getOrNoneByPath db p = some r) : rowsAt db p = [r] := by
  have hr := List.mem_of_find?_eq_some h
  have hk := List.find?_some h
  simp only [beq_iff_eq] at hk
  exact filter_key_unique (fun v => v.file_path) db.videos hnd p r hr hk

/-- A failed lookup means no row at all sits at that path. -/
lemma rowsAt_of_getOrNone_none (db : DB) (p : String)
    (h : getOrNoneByPath db p = none) : rowsAt db p = [] := by
  rw [getOrNoneByPath_eq] at h
  exact List.head?_eq_none_iff.mp h

/-- Inserted rows at a path nobody queued: none. -/
lemma newRows_filter_path_of_not_mem (ts : List SaveTask) (db : DB) (p : String)
    (hp : p ∉ ts.map (fun t => t.path)) :
    (newRows db ts).filter (fun v => v.file_path == p) = [] := by
  apply List.filter_eq_nil_iff.mpr
  intro v hv
  have hmem : v.file_path ∈ (newRows db ts).map (fun v => v.file_path) :=
    List.mem_map_of_mem _ hv
  rw [newRows_path] at hmem
  simp only [beq_iff_eq]
  intro he
  rw [he] at hmem
  exact hp hmem

/-- Inserted rows at the path of one queued write: exactly the fresh
row, carrying the draft's hash and counter-fresh ids. -/
lemma newRows_filter_path_of_mem (ts : List SaveTask) (db : DB) (p : String) (t : SaveTask)
    (hnd : (ts.map (fun t => t.path)).Nodup) (ht : t ∈ ts) (hp : t.path = p) :
    ∃ vnew, (newRows db ts).filter (fun v => v.file_path == p) = [vnew] ∧
      vnew.file_path = p ∧ vnew.file_hash = t.videoDraft.file_hash ∧
      db.nextProgramId ≤ vnew.recorded_program_id ∧ db.nextVideoId ≤ vnew.id := by
  induction ts generalizing db with
  | nil => cases ht
  | cons t0 ts ih =>
    rw [newRows]
    simp only [List.map_cons, List.nodup_cons] at hnd
    rcases List.mem_cons.mp ht with h | h
    · subst h
      rw [List.filter_cons_of_pos (by simp [newVideoOf, hp])]
      rw [newRows_filter_path_of_not_mem ts _ p (by rw [← hp]; exact hnd.1)]
      exact ⟨newVideoOf db t, rfl, by simp [newVideoOf, hp], rfl, Nat.le_refl _, Nat.le_refl _⟩
    · have hmem : p ∈ ts.map (fun t => t.path) := by
        rw [← hp]
        exact List.mem_map_of_mem _ h
      have hne : ¬ ((newVideoOf db t0).file_path == p) = true := by
        simp only [newVideoOf, beq_iff_eq]
        intro he
        exact hnd.1 (he ▸ hmem)
      rw [List.filter_cons, if_neg hne]
      obtain ⟨vnew, h1, h2, h3, h4, h5⟩ := ih (applySave db t0).1 hnd.2 h
      refine ⟨vnew, h1, h2, h3, ?_, ?_⟩
      · rw [applySave_nextProgramId] at h4
        omega
      · rw [applySave_nextVideoId] at h5
        omega

/-- Bound on replaced program ids for the queue the scan produces. -/
lemma scanTasks_cur_bound (db : DB) (files : List FileMeta) (hwf : WellFormed db) :
    ∀ t ∈ files.filterMap (taskOf db), ∀ cur, t.current = some cur →
      cur.recorded_program_id < db.nextProgramId := by
  intro t ht cur hcur
  obtain ⟨f, hf, htf⟩ := List.mem_filterMap.mp ht
  obtain ⟨-, -, hcur', -⟩ := taskOf_spec db f t htf
  rw [hcur'] at hcur
  exact hwf.2.2.2.2 cur (List.mem_of_find?_eq_some hcur)

/-- Queued paths form a sublist of the walked paths. -/
lemma scanTasks_paths_sublist (db : DB) (files : List FileMeta) :
    ((files.filterMap (taskOf db)).map (fun t => t.path)).Sublist
      (files.map FileMeta.path) := by
  induction files with
  | nil => simp
  | cons f fs ih =>
    rw [List.filterMap_cons]
    cases h : taskOf db f with
    | none =>
      simp only [List.map_cons]
      exact ih.cons _
    | some t =>
      simp only [List.map_cons, (taskOf_spec db f t h).2.1]
      exact ih.cons₂ _

/-- Queued paths are pairwise distinct when the walked paths are. -/
lemma scanTasks_paths_nodup (db : DB) (files : List FileMeta)
    (hnd : (files.map FileMeta.path).Nodup) :
    ((files.filterMap (taskOf db)).map (fun t => t.path)).Nodup :=
  hnd.sublist (scanTasks_paths_sublist db files)

/-- If a file contributes no queued write, no queued write carries its
path. -/
lemma no_task_at (db : DB) (files : List FileMeta) (f : FileMeta)
    (hnd : (files.map FileMeta.path).Nodup) (hf : f ∈ files)
    (hnone : taskOf db f = none) :
    ∀ t ∈ files.filterMap (taskOf db), t.path ≠ f.path := by
  intro t ht heq
  obtain ⟨g, hg, hgt⟩ := List.mem_filterMap.mp ht
  have hp := (taskOf_spec db g t hgt).2.1
  have hgf : g = f := by
    apply List.inj_on_of_nodup_map hnd hg hf
    rw [← hp, heq]
  subst hgf
  rw [hnone] at hgt
  cases hgt

/-- A row not replaced by any queued write survives the write phase. -/
lemma applyTasks_keeps (ts : List SaveTask) (db : DB) (r : VideoRow)
    (hr : r ∈ db.videos)
    (hb : ∀ t ∈ ts, ∀ cur, t.current = some cur → cur.recorded_program_id < db.nextProgramId)
    (hnc : r.recorded_program_id ∉ curPids ts) :
    r ∈ (applyTasks db ts).1.videos := by
  rw [applyTasks_videos ts db hb]
  exact List.mem_append_left _ (List.mem_filter.mpr ⟨hr, by simpa using hnc⟩)

/-- A catalog row whose path is in the seen set and whose path no
queued write carries survives the whole run untouched. -/
lemma run_keeps_row (cfg : List String) (dir : String) (files : List FileMeta)
    (sched : Nat → AttemptResult) (db : DB) (r : VideoRow)
    (hwf : WellFormed db)
    (hr : r ∈ db.videos)
    (hex : r.file_path ∈ (scanFiles db files).existing)
    (hnt : ∀ t ∈ (scanFiles db files).tasks, t.path ≠ r.file_path) :
    r ∈ (updateSingle cfg dir files sched db).db.videos := by
  rcases updateSingle_db cfg dir files sched db with h | h
  · rw [h]
    exact hr
  · rw [h]
    have hts := scan_tasks db files
    have hb : ∀ t ∈ (scanFiles db files).tasks, ∀ cur, t.current = some cur →
        cur.recorded_program_id < db.nextProgramId := by
      rw [hts]
      exact scanTasks_cur_bound db files hwf
    have hnc : r.recorded_program_id ∉ curPids (scanFiles db files).tasks := by
      rw [mem_curPids]
      rintro ⟨t, ht, cur, hcur, hpid⟩
      obtain ⟨g, hg, hgt⟩ := List.mem_filterMap.mp (hts ▸ ht)
      have hspec := taskOf_spec db g t hgt
      rw [hspec.2.2.1] at hcur
      have hcmem := List.mem_of_find?_eq_some hcur
      have hcpath := List.find?_some hcur
      simp only [beq_iff_eq] at hcpath
      have hne : cur.file_path ≠ r.file_path := by
        rw [hcpath, ← hspec.2.1]
        exact hnt t ht
      have hcr : cur = r := List.inj_on_of_nodup_map hwf.2.1 hcmem hr hpid
      exact hne (by rw [hcr])
    have hkeep1 : r ∈ (applyTasks db (scanFiles db files).tasks).1.videos :=
      applyTasks_keeps (scanFiles db files).tasks db r hr hb hnc
    show r ∈ (staleDelete cfg dir (scanFiles db files).existing
        (applyTasks db (scanFiles db files).tasks).1
        (applyTasks db (scanFiles db files).tasks).1.videos).1.videos
    apply staleDelete_keeps _ _ _ _ r hkeep1
    · simpa using hex
    · intro w hw hpid
      rw [applyTasks_videos _ db hb] at hw
      rcases List.mem_append.mp hw with hw | hw
      · exact List.inj_on_of_nodup_map hwf.2.1 (List.mem_filter.mp hw).1 hr hpid
      · have hge := newRows_pid_ge _ db w hw
        have hlt := hwf.2.2.2.2 r hr
        omega

/-! ### The catalog at one path after a committed run -/

/-- Two filters commute. -/
lemma filter_swap {α : Type} (p q : α → Bool) (l : List α) :
    (l.filter p).filter q = (l.filter q).filter p := by
  simp only [List.filter_filter]
  apply List.filter_congr
  intro a _
  rw [Bool.and_comm]

/-- Rows at a path after the write phase: the surviving old rows at
that path, then the inserted rows at that path. -/
lemma rowsAt_applyTasks (ts : List SaveTask) (db : DB) (p : String)
    (hb : ∀ t ∈ ts, ∀ cur, t.current = some cur → cur.recorded_program_id < db.nextProgramId) :
    rowsAt (applyTasks db ts).1 p =
      (rowsAt db p).filter (fun v => v.recorded_program_id ∉ curPids ts) ++
        (newRows db ts).filter (fun v => v.file_path == p) := by
  show (applyTasks db ts).1.videos.filter _ = _
  rw [applyTasks_videos ts db hb, List.filter_append]
  congr 1
  exact filter_swap _ _ _

/-- Program ids of the inserted rows are pairwise distinct. -/
lemma newRows_pid_nodup (ts : List SaveTask) (db : DB) :
    ((newRows db ts).map (fun v => v.recorded_program_id)).Nodup := by
  induction ts generalizing db with
  | nil => exact List.nodup_nil
  | cons t ts ih =>
    rw [newRows, List.map_cons]
    refine List.nodup_cons.mpr ⟨?_, ih (applySave db t).1⟩
    intro hmem
    simp only [List.mem_map] at hmem
    obtain ⟨v, hv, hpid⟩ := hmem
    have hge := newRows_pid_ge ts (applySave db t).1 v hv
    rw [applySave_nextProgramId] at hge
    simp only [newVideoOf] at hpid
    omega

/-- The queue decision for a file depends on the store only through the
path lookup. -/
lemma taskOf_congr (db1 db2 : DB) (f : FileMeta)
    (h : getOrNoneByPath db1 f.path = getOrNoneByPath db2 f.path) :
    taskOf db1 f = taskOf db2 f := by
  unfold taskOf
  rw [h]

/-- The scan loop never emits a deletion log line. -/
lemma deleteRecorded_not_in_logsOf (db : DB) (f : FileMeta) (p : String) :
    LogEvent.deleteRecorded p ∉ logsOf db f := by
  unfold logsOf
  by_cases hv : validFile f
  · rw [if_pos hv]
    cases f.hash with
    | none => simp
    | some h =>
      cases getOrNoneByPath db f.path with
      | none => cases f.analysis <;> simp
      | some cur =>
        by_cases hsame : cur.file_hash = h
        · simp [hsame]
        · cases f.analysis <;> simp [hsame]
  · rw [if_neg hv]
    simp

/-- The path of a valid walked file is in the seen set. -/
lemma path_mem_existing (db : DB) (files : List FileMeta) (f : FileMeta)
    (hf : f ∈ files) (hv : validFile f = true) :
    f.path ∈ (scanFiles db files).existing := by
  rw [scan_existing]
  exact List.mem_map_of_mem _ (List.mem_filter.mpr ⟨hf, by simpa using hv⟩)

/-- After a committed batch, the path of a file that queued a write
holds exactly the freshly inserted row, which carries the draft's
hash. -/
lemma commit_rowsAt_task (cfg : List String) (dir : String) (files : List FileMeta)
    (db : DB) (f : FileMeta) (t : SaveTask)
    (hwf : WellFormed db) (hnd : (files.map FileMeta.path).Nodup)
    (hf : f ∈ files) (ht : taskOf db f = some t) :
    ∃ vnew,
      rowsAt (applyBatch cfg dir (scanFiles db files).existing
        (scanFiles db files).tasks db).db f.path = [vnew] ∧
      vnew.file_hash = t.videoDraft.file_hash := by
  have hts := scan_tasks db files
  have hb : ∀ t' ∈ (scanFiles db files).tasks, ∀ cur, t'.current = some cur →
      cur.recorded_program_id < db.nextProgramId := by
    rw [hts]
    exact scanTasks_cur_bound db files hwf
  have hmem : t ∈ (scanFiles db files).tasks := by
    rw [hts]
    exact List.mem_filterMap.mpr ⟨f, hf, ht⟩
  have hspec := taskOf_spec db f t ht
  have htsnd : ((scanFiles db files).tasks.map (fun t => t.path)).Nodup := by
    rw [hts]
    exact scanTasks_paths_nodup db files hnd
  obtain ⟨vnew, hnew, hnpath, hnhash, hnpid, hnid⟩ :=
    newRows_filter_path_of_mem (scanFiles db files).tasks db f.path t htsnd hmem hspec.2.1
  have hold : (rowsAt db f.path).filter
      (fun v => v.recorded_program_id ∉ curPids (scanFiles db files).tasks) = [] := by
    cases hcur : getOrNoneByPath db f.path with
    | none => rw [rowsAt_of_getOrNone_none db f.path hcur, List.filter_nil]
    | some cur =>
      rw [rowsAt_of_getOrNone db f.path cur hwf.1 hcur]
      have hin : cur.recorded_program_id ∈ curPids (scanFiles db files).tasks := by
        rw [mem_curPids]
        exact ⟨t, hmem, cur, by rw [hspec.2.2.1, hcur], rfl⟩
      rw [List.filter_cons, if_neg (by simp [hin]), List.filter_nil]
  have hW : rowsAt (applyTasks db (scanFiles db files).tasks).1 f.path = [vnew] := by
    rw [rowsAt_applyTasks _ db f.path hb, hold, hnew]
    rfl
  have hpex : f.path ∈ (scanFiles db files).existing :=
    path_mem_existing db files f hf hspec.1
  refine ⟨vnew, ?_, hnhash⟩
  show rowsAt (staleDelete cfg dir (scanFiles db files).existing
      (applyTasks db (scanFiles db files).tasks).1
      (applyTasks db (scanFiles db files).tasks).1.videos).1 f.path = [vnew]
  rw [staleDelete_eq]
  show ((applyTasks db (scanFiles db files).tasks).1.videos.filter _).filter _ = [vnew]
  rw [filter_swap]
  have hrw : (applyTasks db (scanFiles db files).tasks).1.videos.filter
      (fun v => v.file_path == f.path) = [vnew] := hW
  have hnotin : vnew.recorded_program_id ∉ stalePids cfg dir (scanFiles db files).existing
      (applyTasks db (scanFiles db files).tasks).1.videos := by
    intro hsp
    unfold stalePids at hsp
    simp only [List.mem_map, List.mem_filter] at hsp
    obtain ⟨w, ⟨hwmem, hwbad⟩, hwpid⟩ := hsp
    rw [applyTasks_videos _ db hb] at hwmem
    rcases List.mem_append.mp hwmem with hwm | hwm
    · have hwlt := hwf.2.2.2.2 w (List.mem_filter.mp hwm).1
      omega
    · have hvnewmem : vnew ∈ newRows db (scanFiles db files).tasks := by
        have hm : vnew ∈ (newRows db (scanFiles db files).tasks).filter
            (fun v => v.file_path == f.path) := by
          rw [hnew]
          exact List.mem_singleton.mpr rfl
        exact (List.mem_filter.mp hm).1
      have hweq : w = vnew :=
        List.inj_on_of_nodup_map (newRows_pid_nodup (scanFiles db files).tasks db) hwm
          hvnewmem hwpid
      subst hweq
      unfold staleBad at hwbad
      rw [hnpath] at hwbad
      simp [hpex] at hwbad
  rw [hrw, List.filter_cons, if_pos (by simp [hnotin]), List.filter_nil]

/-- After a committed batch, the path of a valid file that queued
nothing holds exactly the rows it held before. -/
lemma commit_rowsAt_notask (cfg : List String) (dir : String) (files : List FileMeta)
    (db : DB) (f : FileMeta)
    (hwf : WellFormed db) (hnd : (files.map FileMeta.path).Nodup)
    (hf : f ∈ files) (hv : validFile f = true) (hnone : taskOf db f = none) :
    rowsAt (applyBatch cfg dir (scanFiles db files).existing
      (scanFiles db files).tasks db).db f.path = rowsAt db f.path := by
  have hts := scan_tasks db files
  have hb : ∀ t' ∈ (scanFiles db files).tasks, ∀ cur, t'.current = some cur →
      cur.recorded_program_id < db.nextProgramId := by
    rw [hts]
    exact scanTasks_cur_bound db files hwf
  have hnt : ∀ t ∈ (scanFiles db files).tasks, t.path ≠ f.path := by
    rw [hts]
    exact no_task_at db files f hnd hf hnone
  have hnp : f.path ∉ (scanFiles db files).tasks.map (fun t => t.path) := by
    intro hmem
    obtain ⟨t, htm, hpeq⟩ := List.mem_map.mp hmem
    exact hnt t htm hpeq
  have hnewnil : (newRows db (scanFiles db files).tasks).filter
      (fun v => v.file_path == f.path) = [] :=
    newRows_filter_path_of_not_mem _ db f.path hnp
  have hpex : f.path ∈ (scanFiles db files).existing :=
    path_mem_existing db files f hf hv
  have hcurkeep : ∀ r, getOrNoneByPath db f.path = some r →
      r.recorded_program_id ∉ curPids (scanFiles db files).tasks := by
    intro r hr hin
    rw [mem_curPids] at hin
    obtain ⟨t, htm, cur, hcur, hpid⟩ := hin
    obtain ⟨g, hg, hgt⟩ := List.mem_filterMap.mp (hts ▸ htm)
    have hspec := taskOf_spec db g t hgt
    rw [hspec.2.2.1] at hcur
    have hcmem := List.mem_of_find?_eq_some hcur
    have hcpath := List.find?_some hcur
    simp only [beq_iff_eq] at hcpath
    have hrmem := List.mem_of_find?_eq_some hr
    have hrpath := List.find?_some hr
    simp only [beq_iff_eq] at hrpath
    have hcr : cur = r := List.inj_on_of_nodup_map hwf.2.1 hcmem hrmem hpid
    apply hnt t htm
    rw [hspec.2.1, ← hcpath, hcr]
    exact hrpath
  have hW : rowsAt (applyTasks db (scanFiles db files).tasks).1 f.path = rowsAt db f.path := by
    rw [rowsAt_applyTasks _ db f.path hb, hnewnil, List.append_nil]
    cases hcur : getOrNoneByPath db f.path with
    | none =>
      rw [rowsAt_of_getOrNone_none db f.path hcur, List.filter_nil]
    | some cur =>
      rw [rowsAt_of_getOrNone db f.path cur hwf.1 hcur]
      rw [List.filter_cons, if_pos (by simpa using hcurkeep cur hcur), List.filter_nil]
  show rowsAt (staleDelete cfg dir (scanFiles db files).existing
      (applyTasks db (scanFiles db files).tasks).1
      (applyTasks db (scanFiles db files).tasks).1.videos).1 f.path = rowsAt db f.path
  rw [staleDelete_eq]
  show ((applyTasks db (scanFiles db files).tasks).1.videos.filter _).filter _ = _
  rw [filter_swap]
  have hrw : (applyTasks db (scanFiles db files).tasks).1.videos.filter
      (fun v => v.file_path == f.path) = rowsAt db f.path := hW
  rw [hrw]
  cases hcur : getOrNoneByPath db f.path with
  | none =>
    rw [rowsAt_of_getOrNone_none db f.path hcur, List.filter_nil]
  | some cur =>
    have hcmem := List.mem_of_find?_eq_some hcur
    have hcpath := List.find?_some hcur
    simp only [beq_iff_eq] at hcpath
    have hnotin : cur.recorded_program_id ∉ stalePids cfg dir (scanFiles db files).existing
        (applyTasks db (scanFiles db files).tasks).1.videos := by
      intro hsp
      unfold stalePids at hsp
      simp only [List.mem_map, List.mem_filter] at hsp
      obtain ⟨w, ⟨hwmem, hwbad⟩, hwpid⟩ := hsp
      rw [applyTasks_videos _ db hb] at hwmem
      rcases List.mem_append.mp hwmem with hwm | hwm
      · have hwr : w = cur :=
          List.inj_on_of_nodup_map hwf.2.1 (List.mem_filter.mp hwm).1 hcmem hwpid
        subst hwr
        unfold staleBad at hwbad
        rw [hcpath] at hwbad
        simp [hpex] at hwbad
      · have hge := newRows_pid_ge _ db w hwm
        have hlt := hwf.2.2.2.2 cur hcmem
        omega
    rw [rowsAt_of_getOrNone db f.path cur hwf.1 hcur, List.filter_cons,
      if_pos (by simp [hnotin]), List.filter_nil]

/-! ### The second run over an unchanged filesystem -/

/-- After a committed contention-free run, a second scan of the same
files queues nothing. -/
lemma run2_taskOf_none (cfg : List String) (dir : String) (files : List FileMeta) (db : DB)
    (hwf : WellFormed db) (hnd : (files.map FileMeta.path).Nodup)
    (hcons : ∀ f ∈ files, hashConsistent f = true) :
    ∀ f ∈ files, taskOf (updateSingle cfg dir files schedOk db).db f = none := by
  intro f hf
  have hdb1 : (updateSingle cfg dir files schedOk db).db =
      (applyBatch cfg dir (scanFiles db files).existing (scanFiles db files).tasks db).db := by
    rw [updateSingle_schedOk]
  by_cases hv : validFile f
  · cases hh : f.hash with
    | none =>
      unfold taskOf
      rw [if_pos hv, hh]
    | some h =>
      cases ht : taskOf db f with
      | some t =>
        obtain ⟨vnew, hrows, hhash⟩ := commit_rowsAt_task cfg dir files db f t hwf hnd hf ht
        have hlook : getOrNoneByPath (updateSingle cfg dir files schedOk db).db f.path
            = some vnew := by
          rw [hdb1, getOrNoneByPath_eq, hrows]
          rfl
        obtain ⟨-, -, -, h0, vd, pd, cd, hh0, ha, hvd, -⟩ := taskOf_spec db f t ht
        have hcf := hcons f hf
        unfold hashConsistent at hcf
        simp only [hh0, ha, beq_iff_eq] at hcf
        have hhe : h0 = h := by
          rw [hh] at hh0
          exact (Option.some.inj hh0).symm
        have hhh : vnew.file_hash = h := by
          rw [hhash, hvd, hcf, hhe]
        unfold taskOf
        rw [if_pos hv, hh, hlook]
        simp [hhh]
      | none =>
        have hrows := commit_rowsAt_notask cfg dir files db f hwf hnd hf hv ht
        have hlook : getOrNoneByPath (updateSingle cfg dir files schedOk db).db f.path
            = getOrNoneByPath db f.path := by
          rw [hdb1, getOrNoneByPath_eq, hrows, getOrNoneByPath_eq]
        exact (taskOf_congr _ db f hlook).trans ht
  · unfold taskOf
    rw [if_neg hv]

/-- The second scan's task queue is empty. -/
lemma run2_tasks_nil (cfg : List String) (dir : String) (files : List FileMeta) (db : DB)
    (hwf : WellFormed db) (hnd : (files.map FileMeta.path).Nodup)
    (hcons : ∀ f ∈ files, hashConsistent f = true) :
    (scanFiles (updateSingle cfg dir files schedOk db).db files).tasks = [] := by
  rw [scan_tasks]
  exact List.filterMap_eq_nil_iff.mpr (run2_taskOf_none cfg dir files db hwf hnd hcons)

/-- Every row the first committed run leaves behind passes the deletion
phase's checks. -/
lemma run1_videos_ok (cfg : List String) (dir : String) (files : List FileMeta) (db : DB) :
    ∀ v ∈ (updateSingle cfg dir files schedOk db).db.videos,
      staleBad cfg dir (scanFiles db files).existing v = false := by
  intro v hv
  rw [updateSingle_schedOk] at hv
  exact (staleDelete_survivor cfg dir (scanFiles db files).existing
    (applyTasks db (scanFiles db files).tasks).1 v hv).2

/-- The second run leaves the catalog exactly as the first left it. -/
lemma run2_db_eq (cfg : List String) (dir : String) (files : List FileMeta) (db : DB)
    (hwf : WellFormed db) (hnd : (files.map FileMeta.path).Nodup)
    (hcons : ∀ f ∈ files, hashConsistent f = true) :
    (updateSingle cfg dir files schedOk (updateSingle cfg dir files schedOk db).db).db =
      (updateSingle cfg dir files schedOk db).db := by
  rw [updateSingle_schedOk cfg dir files (updateSingle cfg dir files schedOk db).db]
  show (applyBatch cfg dir
      (scanFiles (updateSingle cfg dir files schedOk db).db files).existing
      (scanFiles (updateSingle cfg dir files schedOk db).db files).tasks
      (updateSingle cfg dir files schedOk db).db).db = _
  rw [run2_tasks_nil cfg dir files db hwf hnd hcons]
  have hex : (scanFiles (updateSingle cfg dir files schedOk db).db files).existing =
      (scanFiles db files).existing := by
    rw [scan_existing, scan_existing]
  rw [hex]
  show (staleDelete cfg dir (scanFiles db files).existing
      (updateSingle cfg dir files schedOk db).db
      (updateSingle cfg dir files schedOk db).db.videos).1 = _
  rw [staleDelete_noop cfg dir (scanFiles db files).existing _ _
    (run1_videos_ok cfg dir files db)]

/-- The second run logs no deletion. -/
lemma run2_no_delete_logs (cfg : List String) (dir : String) (files : List FileMeta) (db : DB)
    (hwf : WellFormed db) (hnd : (files.map FileMeta.path).Nodup)
    (hcons : ∀ f ∈ files, hashConsistent f = true) :
    ∀ p, LogEvent.deleteRecorded p ∉
      (updateSingle cfg dir files schedOk (updateSingle cfg dir files schedOk db).db).logs := by
  intro p hp
  rw [updateSingle_schedOk cfg dir files (updateSingle cfg dir files schedOk db).db] at hp
  rcases List.mem_append.mp hp with hp | hp
  · rw [scan_logs] at hp
    simp only [List.mem_flatten, List.mem_map] at hp
    obtain ⟨L, ⟨g, hg, rfl⟩, hin⟩ := hp
    exact deleteRecorded_not_in_logsOf _ g p hin
  · have hlogs : (applyBatch cfg dir
        (scanFiles (updateSingle cfg dir files schedOk db).db files).existing
        (scanFiles (updateSingle cfg dir files schedOk db).db files).tasks
        (updateSingle cfg dir files schedOk db).db).logs = [] := by
      rw [run2_tasks_nil cfg dir files db hwf hnd hcons]
      have hex : (scanFiles (updateSingle cfg dir files schedOk db).db files).existing =
          (scanFiles db files).existing := by
        rw [scan_existing, scan_existing]
      rw [hex]
      show (staleDelete cfg dir (scanFiles db files).existing
          (updateSingle cfg dir files schedOk db).db
          (updateSingle cfg dir files schedOk db).db.videos).2.1 = []
      rw [staleDelete_noop cfg dir (scanFiles db files).existing _ _
        (run1_videos_ok cfg dir files db)]
    rw [hlogs] at hp
    cases hp

/-! ### Last helper lemmas before the claims -/

/-- Each queued write's trace pairs up, in order, with its task. -/
lemma applyTasks_shape (ts : List SaveTask) (db : DB) :
    List.Forall₂ taskOpsShape ts (applyTasks db ts).2 := by
  induction ts generalizing db with
  | nil => exact List.Forall₂.nil
  | cons t ts ih =>
    show List.Forall₂ _ _ ((applySave db t).2 :: (applyTasks (applySave db t).1 ts).2)
    exact List.Forall₂.cons (applySave_shape db t) (ih _)

/-- Unfolding of the deletion predicate into the two checks of the
source: not sibling-owned, and not in the seen set. -/
lemma staleBad_iff (cfg : List String) (dir : String) (existing : List String) (v : VideoRow) :
    staleBad cfg dir existing v = true ↔
      (v.file_path ∉ existing ∧
        (strStartsWith v.file_path dir = true ∨
          ∀ d ∈ cfg, strStartsWith v.file_path d = false)) := by
  unfold staleBad staleSkip
  constructor
  · intro h
    simp only [Bool.and_eq_true, Bool.not_eq_true'] at h
    obtain ⟨hskip, hcont⟩ := h
    refine ⟨by simpa using hcont, ?_⟩
    rcases Bool.and_eq_false_iff.mp hskip with h1 | h1
    · left
      simpa using h1
    · right
      intro d hd
      rcases hpd : strStartsWith v.file_path d with _ | _
      · rfl
      · exact absurd (List.any_eq_true.mpr ⟨d, hd, hpd⟩) (by simp [h1])
  · rintro ⟨hcont, hrest⟩
    simp only [Bool.and_eq_true, Bool.not_eq_true']
    refine ⟨?_, by simpa using hcont⟩
    rcases hrest with h1 | h1
    · simp [h1]
    · have hany : cfg.any (fun d => strStartsWith v.file_path d) = false := by
        rw [List.any_eq_false]
        intro d hd
        simp [h1 d hd]
      simp [hany]

/-- A file with a failing hash or failing analysis queues nothing. -/
lemma taskOf_none_of_skip (db : DB) (f : FileMeta)
    (hskip : f.hash = none ∨ f.analysis = AnalyzeOutcome.unparseable ∨
      f.analysis = AnalyzeOutcome.failure) :
    taskOf db f = none := by
  unfold taskOf
  by_cases hv : validFile f
  · rw [if_pos hv]
    rcases hskip with hs | hs | hs
    · rw [hs]
    all_goals
      cases hh : f.hash with
      | none => rfl
      | some h =>
        cases hcur : getOrNoneByPath db f.path with
        | none => simp [hs]
        | some cur =>
          by_cases hsame : cur.file_hash = h
          · simp [hsame]
          · simp [hsame, hs]
  · rw [if_neg hv]

/-! ### The claims -/

/-- C1: if the configured watched-directory set is empty, a run of the
orchestrator (`RecordedVideo.update`) deletes every `Program` row in
the catalog, with each owned `RecordingFile` deleted by cascade,
regardless of how many rows existed before; for a non-empty
configuration this delete-all is not performed. -/
theorem claim1_empty_config_deletes_all (cfg : List String)
    (env : String → List FileMeta) (sched : String → Nat → AttemptResult) (db : DB) :
    (cfg = [] →
      (update cfg env sched db).db.programs = [] ∧
      (∀ v ∈ db.videos, (∃ p ∈ db.programs, p.id = v.recorded_program_id) →
        v ∉ (update cfg env sched db).db.videos) ∧
      (update cfg env sched db).deleteAllPerformed = true) ∧
    (cfg ≠ [] → (update cfg env sched db).deleteAllPerformed = false) := by
  constructor
  · intro hc
    subst hc
    rw [update_empty]
    exact ⟨rfl, fun v hv hp => deleteAllPrograms_videos db v hp, rfl⟩
  · exact update_nonempty cfg env sched db

theorem claim1_witness :
    (update [] (fun _ => []) (fun _ _ => .success) exCatalog).db.programs = [] ∧
    exOldRow ∉ (update [] (fun _ => []) (fun _ _ => .success) exCatalog).db.videos ∧
    (update [] (fun _ => []) (fun _ _ => .success) exCatalog).deleteAllPerformed = true ∧
    (update ["/rec"] (fun _ => []) (fun _ _ => .success) exCatalog).deleteAllPerformed = false := by
  have h1 := claim1_empty_config_deletes_all [] (fun _ => []) (fun _ _ => .success) exCatalog
  have h2 := claim1_empty_config_deletes_all ["/rec"] (fun _ => []) (fun _ _ => .success) exCatalog
  exact ⟨(h1.1 rfl).1,
    (h1.1 rfl).2.1 exOldRow (by decide) ⟨⟨1, some "ch1", "A"⟩, by decide, rfl⟩,
    (h1.1 rfl).2.2, h2.2 (by decide)⟩

/-- C2: for a path with a catalog row whose freshly computed
fingerprint differs from the stored one, the queued write deletes the
old `Program` (cascading its `RecordingFile`) and inserts a brand-new
`Program`+`RecordingFile` pair with different row identity; no field of
the existing rows is updated in place — all other rows are carried over
verbatim by the delete/insert characterization. -/
theorem claim2_change_replaces_rows (db : DB) (f : FileMeta) (cur : VideoRow) (h : String)
    (vd : VideoDraft) (pd : ProgramDraft) (cd : Option ChannelRow)
    (hwf : WellFormed db)
    (hv : validFile f = true) (hh : f.hash = some h)
    (hcur : getOrNoneByPath db f.path = some cur) (hdiff : cur.file_hash ≠ h)
    (ha : f.analysis = AnalyzeOutcome.ok vd pd cd) :
    ∃ t, taskOf db f = some t ∧ t.current = some cur ∧
      (scanFiles db [f]).tasks = [t] ∧
      (applySave db t).1.videos =
        db.videos.filter (fun v => v.recorded_program_id ≠ cur.recorded_program_id) ++
          [newVideoOf db t] ∧
      (applySave db t).1.programs =
        db.programs.filter (fun p => p.id ≠ cur.recorded_program_id) ++ [newProgramOf db t] ∧
      cur ∉ (applySave db t).1.videos ∧
      (∀ p ∈ db.programs, p.id = cur.recorded_program_id → p ∉ (applySave db t).1.programs) ∧
      (newVideoOf db t).id ≠ cur.id ∧
      (newProgramOf db t).id ≠ cur.recorded_program_id ∧
      (∀ v ∈ db.videos, (newVideoOf db t).id ≠ v.id) ∧
      (∀ p ∈ db.programs, (newProgramOf db t).id ≠ p.id) := by
  have hcmem := List.mem_of_find?_eq_some hcur
  have hcurlt := hwf.2.2.1 cur hcmem
  have hcplt := hwf.2.2.2.2 cur hcmem
  have htask : taskOf db f = some ⟨some cur, vd, f.path, pd, cd⟩ := by
    unfold taskOf
    rw [if_pos hv]
    simp only [hh, hcur, ha, hdiff, if_false]
  set t : SaveTask := ⟨some cur, vd, f.path, pd, cd⟩ with hteq
  have hV : (applySave db t).1.videos =
      db.videos.filter (fun v => v.recorded_program_id ≠ cur.recorded_program_id) ++
        [newVideoOf db t] := by
    rw [applySave_videos]
    rfl
  have hP : (applySave db t).1.programs =
      db.programs.filter (fun p => p.id ≠ cur.recorded_program_id) ++ [newProgramOf db t] := by
    rw [applySave_programs]
    rfl
  refine ⟨t, htask, rfl, ?_, hV, hP, ?_, ?_, ?_, ?_, ?_, ?_⟩
  · rw [scan_tasks, List.filterMap_cons, htask]
    rfl
  · intro hmem
    rw [hV] at hmem
    rcases List.mem_append.mp hmem with hm | hm
    · have := (List.mem_filter.mp hm).2
      simp at this
    · rw [List.mem_singleton] at hm
      rw [hm] at hcurlt
      simp only [newVideoOf] at hcurlt
      omega
  · intro p hp hpid hmem
    rw [hP] at hmem
    rcases List.mem_append.mp hmem with hm | hm
    · have := (List.mem_filter.mp hm).2
      simp [hpid] at this
    · rw [List.mem_singleton] at hm
      have := hwf.2.2.2.1 p hp
      rw [hm] at this
      simp only [newProgramOf] at this
      omega
  · simp only [newVideoOf]
    omega
  · simp only [newProgramOf]
    omega
  · intro v hv2
    have := hwf.2.2.1 v hv2
    simp only [newVideoOf]
    omega
  · intro p hp
    have := hwf.2.2.2.1 p hp
    simp only [newProgramOf]
    omega

theorem claim2_witness :
    ∃ t, taskOf exCatalog exChangedFile = some t ∧ t.current = some exOldRow ∧
      (scanFiles exCatalog [exChangedFile]).tasks = [t] ∧
      (applySave exCatalog t).1.videos =
        exCatalog.videos.filter
          (fun v => v.recorded_program_id ≠ exOldRow.recorded_program_id) ++
          [newVideoOf exCatalog t] ∧
      (applySave exCatalog t).1.programs =
        exCatalog.programs.filter (fun p => p.id ≠ exOldRow.recorded_program_id) ++
          [newProgramOf exCatalog t] ∧
      exOldRow ∉ (applySave exCatalog t).1.videos ∧
      (∀ p ∈ exCatalog.programs, p.id = exOldRow.recorded_program_id →
        p ∉ (applySave exCatalog t).1.programs) ∧
      (newVideoOf exCatalog t).id ≠ exOldRow.id ∧
      (newProgramOf exCatalog t).id ≠ exOldRow.recorded_program_id ∧
      (∀ v ∈ exCatalog.videos, (newVideoOf exCatalog t).id ≠ v.id) ∧
      (∀ p ∈ exCatalog.programs, (newProgramOf exCatalog t).id ≠ p.id) :=
  claim2_change_replaces_rows exCatalog exChangedFile exOldRow "hNew"
    ⟨"hNew", "m2"⟩ ⟨"T2"⟩ none
    ⟨by decide, by decide, by decide, by decide, by decide⟩
    (by decide) (by decide) (by decide) (by decide) (by decide)

/-- C3 counterexample: with the configured directories `/rec` and
`/recordings`, the worker scanning `/rec` deletes the catalog row whose
path lies under the other configured directory `/recordings`, because
ownership is decided by string prefix, not by filesystem containment. -/
theorem claim3_counterexample :
    ("/recordings" : String) ∈ (["/rec", "/recordings"] : List String) ∧
    ("/recordings" : String) ≠ "/rec" ∧
    pathUnder "/recordings" "/recordings/x.ts" = true ∧
    (⟨1, 1, "/recordings/x.ts", "h", "m"⟩ : VideoRow) ∈ sibCatalog.videos ∧
    (updateSingle ["/rec", "/recordings"] "/rec" [] schedOk sibCatalog).db.videos = [] := by
  decide

/-- C3 (amended): ownership in the stale-row deletion phase is by
string prefix: a worker scanning `dir` deletes exactly those snapshot
rows not in its seen set whose path starts with the string `dir` or
starts with no configured directory's string; a row whose path does not
start with `dir` but starts with some configured directory's string is
never deleted. -/
theorem claim3_prefix_isolation (cfg : List String) (dir : String)
    (existing : List String) (db : DB)
    (hpid : (db.videos.map (fun v => v.recorded_program_id)).Nodup) :
    ∀ v ∈ db.videos,
      (v ∉ (staleDelete cfg dir existing db db.videos).1.videos ↔
        (v.file_path ∉ existing ∧
          (strStartsWith v.file_path dir = true ∨
            ∀ d ∈ cfg, strStartsWith v.file_path d = false))) := by
  intro v hv
  constructor
  · intro hnot
    have hpidmem : v.recorded_program_id ∈ stalePids cfg dir existing db.videos := by
      by_contra hni
      apply hnot
      rw [staleDelete_eq]
      exact List.mem_filter.mpr ⟨hv, by simpa using hni⟩
    unfold stalePids at hpidmem
    simp only [List.mem_map, List.mem_filter] at hpidmem
    obtain ⟨w, ⟨hw, hbad⟩, hwp⟩ := hpidmem
    have hwv : w = v := List.inj_on_of_nodup_map hpid hw hv hwp
    subst hwv
    exact (staleBad_iff cfg dir existing w).mp hbad
  · intro hrhs
    have hbad := (staleBad_iff cfg dir existing v).mpr hrhs
    intro hmem
    rw [staleDelete_eq] at hmem
    have hni := (List.mem_filter.mp hmem).2
    simp only [decide_eq_true_eq] at hni
    apply hni
    unfold stalePids
    exact List.mem_map_of_mem _ (List.mem_filter.mpr ⟨hv, hbad⟩)

theorem claim3_witness :
    ((⟨1, 1, "/recordings/x.ts", "h", "m"⟩ : VideoRow) ∉
        (staleDelete ["/rec", "/recordings"] "/rec" [] sibCatalog sibCatalog.videos).1.videos ↔
      (("/recordings/x.ts" : String) ∉ ([] : List String) ∧
        (strStartsWith "/recordings/x.ts" "/rec" = true ∨
          ∀ d ∈ (["/rec", "/recordings"] : List String),
            strStartsWith "/recordings/x.ts" d = false))) :=
  claim3_prefix_isolation ["/rec", "/recordings"] "/rec" [] sibCatalog (by decide)
    ⟨1, 1, "/recordings/x.ts", "h", "m"⟩ (by decide)

/-- C4: evaluation of the retry loop at the failing input.  With one
queued write, the first lock error consumes the save coroutine; the
second attempt re-awaits it, raising `RuntimeError`, which escapes to
the outer handler: the run crashes after a single retry instead of
retrying ten times, though the catalog does stay in its pre-run state.
With an empty queue the loop does retry the full ten attempts and then
logs the exhaustion failure. -/
theorem claim4_retry_eval :
    (updateSingle ["/rec"] "/rec" [exGoodFile] schedLockOnFirstSave emptyDB).term =
      TermKind.crashed ∧
    (updateSingle ["/rec"] "/rec" [exGoodFile] schedLockOnFirstSave emptyDB).db = emptyDB ∧
    (updateSingle ["/rec"] "/rec" [exGoodFile] schedLockOnFirstSave emptyDB).logs =
      [LogEvent.addRecorded "/rec/a.ts", LogEvent.dbLocked 9, LogEvent.unexpectedError] ∧
    (updateSingle ["/rec"] "/rec" [] schedLockOnFirstSave emptyDB).term =
      TermKind.exhausted ∧
    (updateSingle ["/rec"] "/rec" [] schedLockOnFirstSave emptyDB).db = emptyDB ∧
    (updateSingle ["/rec"] "/rec" [] schedLockOnFirstSave emptyDB).logs =
      [LogEvent.dbLocked 9, LogEvent.dbLocked 8, LogEvent.dbLocked 7, LogEvent.dbLocked 6,
       LogEvent.dbLocked 5, LogEvent.dbLocked 4, LogEvent.dbLocked 3, LogEvent.dbLocked 2,
       LogEvent.dbLocked 1, LogEvent.dbLocked 0, LogEvent.saveFailed] := by
  decide

/-- C5 counterexample: after a successful first run over an unchanged
filesystem containing one unparseable candidate, the second run
classifies that candidate as New, not Unchanged. -/
theorem claim5_counterexample :
    (updateSingle ["/rec"] "/rec" [exUnparsFile] schedOk emptyDB).term = TermKind.committed ∧
    validFile exUnparsFile = true ∧
    classify (updateSingle ["/rec"] "/rec" [exUnparsFile] schedOk emptyDB).db exUnparsFile =
      Classification.isNew := by
  decide

/-- C5 (amended): a contention-free run commits; over an unchanged
filesystem the second run enqueues zero writes, performs zero
deletions, and leaves the catalog identical; every candidate whose
fingerprint succeeds and whose catalog row carries that fingerprint is
classified Unchanged. -/
theorem claim5_second_run_idempotent (cfg : List String) (dir : String)
    (files : List FileMeta) (db : DB)
    (hwf : WellFormed db) (hnd : (files.map FileMeta.path).Nodup)
    (hcons : ∀ f ∈ files, hashConsistent f = true) :
    (updateSingle cfg dir files schedOk db).term = TermKind.committed ∧
    (scanFiles (updateSingle cfg dir files schedOk db).db files).tasks = [] ∧
    (∀ p, LogEvent.deleteRecorded p ∉
      (updateSingle cfg dir files schedOk (updateSingle cfg dir files schedOk db).db).logs) ∧
    (updateSingle cfg dir files schedOk (updateSingle cfg dir files schedOk db).db).db =
      (updateSingle cfg dir files schedOk db).db ∧
    (∀ f ∈ files, validFile f = true → ∀ h r, f.hash = some h →
      getOrNoneByPath (updateSingle cfg dir files schedOk db).db f.path = some r →
      r.file_hash = h →
      classify (updateSingle cfg dir files schedOk db).db f = Classification.unchanged) := by
  refine ⟨by rw [updateSingle_schedOk], run2_tasks_nil cfg dir files db hwf hnd hcons,
    run2_no_delete_logs cfg dir files db hwf hnd hcons,
    run2_db_eq cfg dir files db hwf hnd hcons, ?_⟩
  intro f hf hv h r hh hr hrh
  unfold classify
  rw [if_pos hv]
  simp only [hh, hr, hrh, if_true]

theorem claim5_witness :
    (updateSingle ["/rec"] "/rec" [exGoodFile] schedOk emptyDB).term = TermKind.committed ∧
    (scanFiles (updateSingle ["/rec"] "/rec" [exGoodFile] schedOk emptyDB).db
      [exGoodFile]).tasks = [] ∧
    (∀ p, LogEvent.deleteRecorded p ∉
      (updateSingle ["/rec"] "/rec" [exGoodFile] schedOk
        (updateSingle ["/rec"] "/rec" [exGoodFile] schedOk emptyDB).db).logs) ∧
    (updateSingle ["/rec"] "/rec" [exGoodFile] schedOk
      (updateSingle ["/rec"] "/rec" [exGoodFile] schedOk emptyDB).db).db =
      (updateSingle ["/rec"] "/rec" [exGoodFile] schedOk emptyDB).db ∧
    (∀ f ∈ [exGoodFile], validFile f = true → ∀ h r, f.hash = some h →
      getOrNoneByPath (updateSingle ["/rec"] "/rec" [exGoodFile] schedOk emptyDB).db f.path =
        some r →
      r.file_hash = h →
      classify (updateSingle ["/rec"] "/rec" [exGoodFile] schedOk emptyDB).db f =
        Classification.unchanged) :=
  claim5_second_run_idempotent ["/rec"] "/rec" [exGoodFile] emptyDB
    ⟨by decide, by decide, by decide, by decide, by decide⟩ (by decide) (by decide)

/-- The log contribution of a valid too-small file. -/
lemma logsOf_hash_none (db : DB) (f : FileMeta) (hv : validFile f = true)
    (h0 : f.hash = none) : logsOf db f = [LogEvent.tooSmall f.path] := by
  unfold logsOf
  rw [if_pos hv, h0]

/-- C6: a candidate that is too small, unparseable, or crashes the
analyzer is skipped: no queued write carries its path, it still enters
the seen set, a too-small file's scan outcome is independent of the
extractor's behaviour (it never reaches the extractor), and any
existing catalog row at its path survives the run unchanged under any
schedule. -/
theorem claim6_failed_candidate_untouched (cfg : List String) (dir : String)
    (files : List FileMeta) (db : DB) (f : FileMeta)
    (hwf : WellFormed db) (hnd : (files.map FileMeta.path).Nodup)
    (hf : f ∈ files) (hv : validFile f = true)
    (hskip : f.hash = none ∨ f.analysis = AnalyzeOutcome.unparseable ∨
      f.analysis = AnalyzeOutcome.failure) :
    (∀ t ∈ (scanFiles db files).tasks, t.path ≠ f.path) ∧
    f.path ∈ (scanFiles db files).existing ∧
    (f.hash = none → ∀ acc a, scanStep db acc f = scanStep db acc { f with analysis := a }) ∧
    (∀ sched r, r ∈ db.videos → r.file_path = f.path →
      r ∈ (updateSingle cfg dir files sched db).db.videos) := by
  have hnone := taskOf_none_of_skip db f hskip
  have hnt : ∀ t ∈ (scanFiles db files).tasks, t.path ≠ f.path := by
    rw [scan_tasks]
    exact no_task_at db files f hnd hf hnone
  have hex := path_mem_existing db files f hf hv
  refine ⟨hnt, hex, ?_, ?_⟩
  · intro hs0 acc a
    have hn2 : taskOf db { f with analysis := a } = none :=
      taskOf_none_of_skip db _ (Or.inl hs0)
    rw [scanStep_eq, scanStep_eq, hnone, hn2,
      logsOf_hash_none db f hv hs0, logsOf_hash_none db { f with analysis := a } hv hs0]
    rfl
  · intro sched r hr hrp
    refine run_keeps_row cfg dir files sched db r hwf hr ?_ ?_
    · rw [hrp]
      exact hex
    · intro t ht
      rw [hrp]
      exact hnt t ht

theorem claim6_witness :
    (∀ t ∈ (scanFiles exCatalog [exUnparsFile]).tasks, t.path ≠ exUnparsFile.path) ∧
    exUnparsFile.path ∈ (scanFiles exCatalog [exUnparsFile]).existing ∧
    (exUnparsFile.hash = none → ∀ acc a, scanStep exCatalog acc exUnparsFile =
      scanStep exCatalog acc { exUnparsFile with analysis := a }) ∧
    (∀ sched r, r ∈ exCatalog.videos → r.file_path = exUnparsFile.path →
      r ∈ (updateSingle ["/rec"] "/rec" [exUnparsFile] sched exCatalog).db.videos) :=
  claim6_failed_candidate_untouched ["/rec"] "/rec" [exUnparsFile] exCatalog exUnparsFile
    ⟨by decide, by decide, by decide, by decide, by decide⟩
    (by decide) (by decide) (by decide) (Or.inr (Or.inl (by decide)))

/-- C7: the scan queues writes in walk order; within one commit each
queued write's operation trace persists Channel, then Program, then
RecordingFile (after the optional replacement delete); every stale-row
operation is a program delete; and the committed state is the deletion
phase run on the state produced by all the queued writes — deletions
strictly after all writes, inside the same transaction. -/
theorem claim7_commit_ordering (cfg : List String) (dir : String) (existing : List String)
    (ts : List SaveTask) (db : DB) (files : List FileMeta) (db0 : DB) :
    (scanFiles db0 files).tasks = files.filterMap (taskOf db0) ∧
    List.Forall₂ taskOpsShape ts (applyBatch cfg dir existing ts db).taskOps ∧
    (∀ op ∈ (applyBatch cfg dir existing ts db).staleOps, ∃ pid, op = DBOp.deleteProgram pid) ∧
    (applyBatch cfg dir existing ts db).db =
      (staleDelete cfg dir existing (applyTasks db ts).1 (applyTasks db ts).1.videos).1 := by
  refine ⟨scan_tasks db0 files, applyTasks_shape ts db, ?_, rfl⟩
  intro op hop
  have hops : (applyBatch cfg dir existing ts db).staleOps =
      ((applyTasks db ts).1.videos.filter (staleBad cfg dir existing)).map
        (fun v => DBOp.deleteProgram v.recorded_program_id) := by
    show (staleDelete cfg dir existing (applyTasks db ts).1
      (applyTasks db ts).1.videos).2.2 = _
    rw [staleDelete_eq]
  rw [hops] at hop
  obtain ⟨v, -, rfl⟩ := List.mem_map.mp hop
  exact ⟨v.recorded_program_id, rfl⟩

theorem claim7_witness :
    (scanFiles emptyDB [exGoodFile]).tasks = [exGoodFile].filterMap (taskOf emptyDB) ∧
    List.Forall₂ taskOpsShape
      [⟨some exOldRow, ⟨"hNew", "m2"⟩, "/rec/u.ts", ⟨"T2"⟩, some ⟨"ch1", "NHK"⟩⟩]
      (applyBatch ["/rec"] "/rec" ["/rec/u.ts"]
        [⟨some exOldRow, ⟨"hNew", "m2"⟩, "/rec/u.ts", ⟨"T2"⟩, some ⟨"ch1", "NHK"⟩⟩]
        exCatalog).taskOps ∧
    (∀ op ∈ (applyBatch ["/rec"] "/rec" ["/rec/u.ts"]
        [⟨some exOldRow, ⟨"hNew", "m2"⟩, "/rec/u.ts", ⟨"T2"⟩, some ⟨"ch1", "NHK"⟩⟩]
        exCatalog).staleOps, ∃ pid, op = DBOp.deleteProgram pid) ∧
    (applyBatch ["/rec"] "/rec" ["/rec/u.ts"]
        [⟨some exOldRow, ⟨"hNew", "m2"⟩, "/rec/u.ts", ⟨"T2"⟩, some ⟨"ch1", "NHK"⟩⟩]
        exCatalog).db =
      (staleDelete ["/rec"] "/rec" ["/rec/u.ts"]
        (applyTasks exCatalog
          [⟨some exOldRow, ⟨"hNew", "m2"⟩, "/rec/u.ts", ⟨"T2"⟩, some ⟨"ch1", "NHK"⟩⟩]).1
        (applyTasks exCatalog
          [⟨some exOldRow, ⟨"hNew", "m2"⟩, "/rec/u.ts", ⟨"T2"⟩, some ⟨"ch1", "NHK"⟩⟩]).1.videos).1 :=
  claim7_commit_ordering ["/rec"] "/rec" ["/rec/u.ts"]
    [⟨some exOldRow, ⟨"hNew", "m2"⟩, "/rec/u.ts", ⟨"T2"⟩, some ⟨"ch1", "NHK"⟩⟩]
    exCatalog [exGoodFile] emptyDB

/-- C8: no engine deletion — per-worker runs, the orchestrator's
delete-all included — ever removes a `Channel` row; and when a queued
write's draft `Channel` has the identity of an already-persisted row,
that existing row is reused: the channel table is unchanged and the new
`Program` references the existing identity. -/
theorem claim8_channel_preservation (cfg : List String) (dir : String)
    (files : List FileMeta) (sched : Nat → AttemptResult) (db : DB)
    (cfg2 : List String) (env : String → List FileMeta)
    (usched : String → Nat → AttemptResult) (db2 : DB)
    (dbx : DB) (t : SaveTask) (c ec : ChannelRow) :
    (∀ ch ∈ db.channels, ch ∈ (updateSingle cfg dir files sched db).db.channels) ∧
    (∀ ch ∈ db2.channels, ch ∈ (update cfg2 env usched db2).db.channels) ∧
    (t.channelDraft = some c → dbx.channels.find? (fun x => x.id == c.id) = some ec →
      (applySave dbx t).1.channels = dbx.channels ∧
      (newProgramOf dbx t).channel_id = some c.id) := by
  refine ⟨?_, ?_, ?_⟩
  · intro ch hch
    obtain ⟨ext, hext⟩ := updateSingle_channels cfg dir files sched db
    rw [hext]
    exact List.mem_append_left _ hch
  · intro ch hch
    obtain ⟨ext, hext⟩ := update_channels cfg2 env usched db2
    rw [hext]
    exact List.mem_append_left _ hch
  · intro hcd hfind
    have hrc : resolveChannel dbx t.channelDraft = some (ec, true) := by
      simp only [resolveChannel, hcd]
      rw [hfind]
    constructor
    · rw [applySave_channels]
      simp [chanExt, hrc]
    · simp [newProgramOf, hcd]

theorem claim8_witness :
    (∀ ch ∈ exCatalog.channels,
      ch ∈ (updateSingle ["/rec"] "/rec" [exChangedFile] schedOk exCatalog).db.channels) ∧
    (∀ ch ∈ exCatalog.channels,
      ch ∈ (update ["/rec"] (fun _ => [exChangedFile]) (fun _ _ => .success)
        exCatalog).db.channels) ∧
    ((⟨some exOldRow, ⟨"hNew", "m2"⟩, "/rec/u.ts", ⟨"T2"⟩,
        some ⟨"ch1", "Other"⟩⟩ : SaveTask).channelDraft = some ⟨"ch1", "Other"⟩ →
      exCatalog.channels.find? (fun x => x.id == "ch1") = some ⟨"ch1", "NHK"⟩ →
      (applySave exCatalog ⟨some exOldRow, ⟨"hNew", "m2"⟩, "/rec/u.ts", ⟨"T2"⟩,
        some ⟨"ch1", "Other"⟩⟩).1.channels = exCatalog.channels ∧
      (newProgramOf exCatalog ⟨some exOldRow, ⟨"hNew", "m2"⟩, "/rec/u.ts", ⟨"T2"⟩,
        some ⟨"ch1", "Other"⟩⟩).channel_id = some ("ch1" : String)) :=
  claim8_channel_preservation ["/rec"] "/rec" [exChangedFile] schedOk exCatalog
    ["/rec"] (fun _ => [exChangedFile]) (fun _ _ => .success) exCatalog
    exCatalog ⟨some exOldRow, ⟨"hNew", "m2"⟩, "/rec/u.ts", ⟨"T2"⟩, some ⟨"ch1", "Other"⟩⟩
    ⟨"ch1", "Other"⟩ ⟨"ch1", "NHK"⟩

/-- C9 counterexample: a directory tree whose only (filter-passing)
file sits inside an unreadable subdirectory: the walk skips the
subdirectory and the run emits no log line at all — in particular no
warning — refuting the claim that unreadable subdirectories are
skipped with a warning. -/
theorem claim9_counterexample :
    walkDir false "/rec" exTree = [] ∧
    validFile ⟨"/rec/sub", "a.ts", some "h", .ok ⟨"h", "m"⟩ ⟨"T"⟩ none⟩ = true ∧
    (updateSingle ["/rec"] "/rec" (walkDir false "/rec" exTree) schedOk emptyDB).logs = [] := by
  decide

/-- C9 (amended): the enumeration never follows symbolic links (a
symlinked subdirectory contributes nothing, whatever lies behind it),
silently skips unreadable subdirectories while the walk continues, and
the seen set is exactly the walked files that pass the sidecar-marker
and extension-whitelist filters; invalid files contribute neither a
queued write nor a log line. -/
theorem claim9_enumeration_filters (db : DB) (files : List FileMeta) (p nm : String)
    (t : DirTree) (rest : SubdirList) (sym fl : Bool) (fs2 : List FileNode)
    (sub2 : SubdirList) (fs : List FileNode) (sub : SubdirList) :
    walkSubs false p (.cons nm true t rest) = walkSubs false p rest ∧
    walkDir fl p (.node true fs sub) = [] ∧
    walkSubs false p (.cons nm sym (.node true fs2 sub2) rest) = walkSubs false p rest ∧
    (scanFiles db files).existing = (files.filter (fun f => validFile f)).map FileMeta.path ∧
    (∀ f, validFile f = false → taskOf db f = none ∧ logsOf db f = []) :=
  ⟨walkSubs_symlink p nm t rest, walkDir_unreadable fl p fs sub,
    walkSubs_unreadable p nm sym fs2 sub2 rest, scan_existing db files,
    fun f hvf => invalid_contributes_nothing db f hvf⟩

theorem claim9_witness :
    walkSubs false "/rec" (.cons "sub" true (.node false [⟨"b.ts", some "h", .unparseable⟩] .nil) .nil) =
      walkSubs false "/rec" .nil ∧
    walkDir false "/rec" (.node true [⟨"b.ts", some "h", .unparseable⟩] .nil) = [] ∧
    walkSubs false "/rec"
        (.cons "sub" false (.node true [⟨"b.ts", some "h", .unparseable⟩] .nil) .nil) =
      walkSubs false "/rec" .nil ∧
    (scanFiles exCatalog [exGoodFile, ⟨"/rec", "._c.ts", some "h", .unparseable⟩]).existing =
      ([exGoodFile, ⟨"/rec", "._c.ts", some "h", .unparseable⟩].filter
        (fun f => validFile f)).map FileMeta.path ∧
    (∀ f, validFile f = false → taskOf exCatalog f = none ∧ logsOf exCatalog f = []) :=
  claim9_enumeration_filters exCatalog [exGoodFile, ⟨"/rec", "._c.ts", some "h", .unparseable⟩]
    "/rec" "sub" (.node false [⟨"b.ts", some "h", .unparseable⟩] .nil) .nil false false
    [⟨"b.ts", some "h", .unparseable⟩] .nil [⟨"b.ts", some "h", .unparseable⟩] .nil

/-- C10: for a path with an existing catalog row whose on-disk file is
now below the minimum size, a run leaves the row (old fingerprint
included) entirely unchanged: the path enters the seen set — the seen
set does not depend on the fingerprint outcome, which is attempted only
after the append — so the too-small failure neither removes the path
from the seen set nor lets the cleanup phase delete the row, and no
queued write touches the path. -/
theorem claim10_too_small_keeps_row (cfg : List String) (dir : String)
    (files : List FileMeta) (db : DB) (f : FileMeta) (r : VideoRow)
    (hwf : WellFormed db) (hnd : (files.map FileMeta.path).Nodup)
    (hf : f ∈ files) (hv : validFile f = true) (hsmall : f.hash = none)
    (hr : r ∈ db.videos) (hrp : r.file_path = f.path) :
    f.path ∈ (scanFiles db files).existing ∧
    (∀ acc h0, (scanStep db acc { f with hash := h0 }).existing =
      (scanStep db acc f).existing) ∧
    (∀ t ∈ (scanFiles db files).tasks, t.path ≠ f.path) ∧
    (∀ sched, r ∈ (updateSingle cfg dir files sched db).db.videos) := by
  have hnone := taskOf_none_of_skip db f (Or.inl hsmall)
  have hnt : ∀ t ∈ (scanFiles db files).tasks, t.path ≠ f.path := by
    rw [scan_tasks]
    exact no_task_at db files f hnd hf hnone
  have hex := path_mem_existing db files f hf hv
  refine ⟨hex, ?_, hnt, ?_⟩
  · intro acc h0
    rw [scanStep_eq, scanStep_eq]
    rfl
  · intro sched
    refine run_keeps_row cfg dir files sched db r hwf hr ?_ ?_
    · rw [hrp]
      exact hex
    · intro t ht
      rw [hrp]
      exact hnt t ht

theorem claim10_witness :
    exTooSmallFile.path ∈ (scanFiles exCatalog [exTooSmallFile]).existing ∧
    (∀ acc h0, (scanStep exCatalog acc { exTooSmallFile with hash := h0 }).existing =
      (scanStep exCatalog acc exTooSmallFile).existing) ∧
    (∀ t ∈ (scanFiles exCatalog [exTooSmallFile]).tasks, t.path ≠ exTooSmallFile.path) ∧
    (∀ sched, exSmallRow ∈
      (updateSingle ["/rec"] "/rec" [exTooSmallFile] sched exCatalog).db.videos) :=
  claim10_too_small_keeps_row ["/rec"] "/rec" [exTooSmallFile] exCatalog exTooSmallFile
    exSmallRow ⟨by decide, by decide, by decide, by decide, by decide⟩
    (by decide) (by decide) (by decide) (by decide) (by decide) (by decide)

end KonomiTV
